import Mathlib

/-!
Verification of the node/credential type registry and loader
(`packages/cli/src/load-nodes-and-credentials.ts`).

The TypeScript class `LoadNodesAndCredentials` is shallowly embedded:
its mutable fields become a `RegistryState` record, its methods become
functions on that record, JavaScript objects (`Record<string, T>`)
become insertion-ordered association lists, `undefined`-able fields
become `Option`, and a JavaScript `TypeError` (reading a property of
`undefined`) becomes `Except.error`.

Node's `path` module (posix flavour) is embedded over `List Char`:
`pathResolve`, `pathRelative` and `pathJoin` below follow Node's
segment-normalisation semantics for absolute base directories.
-/

namespace LoadNodes

/-! ## Path model (Node `path`, posix) -/

/-- Split a character list into the segments between `/` characters
(the raw split; empty segments are kept here and filtered later). -/
def splitSegsAux : List Char → List Char → List (List Char)
  | [], cur => [cur.reverse]
  | c :: rest, cur =>
    if c = '/' then cur.reverse :: splitSegsAux rest []
    else splitSegsAux rest (c :: cur)

/-- The non-empty `/`-separated segments of a path. -/
def splitSegs (p : List Char) : List (List Char) :=
  (splitSegsAux p []).filter (fun s => s ≠ [])

/-- Join segments with `/` separators. -/
def joinSegs (ss : List (List Char)) : List Char :=
  List.intercalate ['/'] ss

/-- Whether a path string starts with `/`. -/
def isAbs (p : List Char) : Bool :=
  match p with
  | '/' :: _ => true
  | _ => false

/-- One normalisation step: drop `.`, pop on `..` (at the root of an
absolute path a surplus `..` is discarded; in a relative path it is
kept), append any other segment. `abs` says the path being normalised
is absolute. -/
def normStep (abs : Bool) (acc : List (List Char)) (seg : List Char) : List (List Char) :=
  if seg = ['.'] then acc
  else if seg = ['.', '.'] then
    match acc.getLast? with
    | none => if abs then [] else [['.', '.']]
    | some l => if l = ['.', '.'] then acc ++ [['.', '.']] else acc.dropLast
  else acc ++ [seg]

/-- Normalise a segment list (resolving `.` and `..`). -/
def normSegs (abs : Bool) (ss : List (List Char)) : List (List Char) :=
  ss.foldl (normStep abs) []

/-- Node `path.resolve(dir, p)` for an absolute `dir`: if `p` is
absolute it is normalised on its own, otherwise it is resolved against
`dir`. Always returns an absolute path. -/
def pathResolve (dir p : List Char) : List Char :=
  if isAbs p then '/' :: joinSegs (normSegs true (splitSegs p))
  else '/' :: joinSegs (normSegs true (splitSegs dir ++ splitSegs p))

/-- Length of the longest common prefix of two segment lists. -/
def commonPrefixLen : List (List Char) → List (List Char) → Nat
  | a :: as, b :: bs => if a = b then commonPrefixLen as bs + 1 else 0
  | _, _ => 0

/-- The segments of Node `path.relative(from, to)` for absolute
arguments: walk up out of the part of `from` that is not shared, then
down into the rest of `to`. -/
def pathRelativeSegs (f t : List Char) : List (List Char) :=
  let fs := normSegs true (splitSegs f)
  let ts := normSegs true (splitSegs t)
  let c := commonPrefixLen fs ts
  List.replicate (fs.length - c) ['.', '.'] ++ ts.drop c

/-- Node `path.relative(from, to)` for absolute arguments. -/
def pathRelative (f t : List Char) : List Char :=
  joinSegs (pathRelativeSegs f t)

/-- Node `path.join(a, b)`: concatenate then normalise, preserving
absoluteness of `a`. -/
def pathJoin (a b : List Char) : List Char :=
  let ss := splitSegs a ++ splitSegs b
  if isAbs a then '/' :: joinSegs (normSegs true ss)
  else
    let r := joinSegs (normSegs false ss)
    if r = [] then ['.'] else r

/-- JavaScript `String.prototype.includes("..")`: whether two
consecutive dots occur anywhere in the character list. -/
def containsDotDot : List Char → Bool
  | [] => false
  | [_] => false
  | a :: b :: rest => (a = '.' && b = '.') || containsDotDot (b :: rest)

/-! ## Data model

Mirrors the `n8n-workflow` description shapes used by the loader file:
node descriptions carry `properties` (with optional `options` arrays)
and optional `credentials` references; credential type descriptions
carry the optional `authenticate` and `extends` fields (the latter
destructured as `extendsArr` in the source). Optional JavaScript
fields are `Option`; `authenticate !== undefined` becomes a `Bool`
presence flag. -/

/-- One entry of a parameter's `options` array. -/
structure NodeOption where
  name : String
  value : String
  deriving Repr, DecidableEq

/-- A node parameter, as inspected by the injection pass: its `name`
and, when `Array.isArray(p.options)`, its `options` array. -/
structure NodeProperty where
  name : String
  options : Option (List NodeOption)
  deriving Repr, DecidableEq

/-- A node description's reference to a credential type (`{ name }`). -/
structure NodeCredentialRef where
  name : String
  deriving Repr, DecidableEq

/-- The part of `INodeTypeDescription` the loader file reads. -/
structure INodeTypeDescription where
  name : String
  version : Nat
  defaultVersion : Option Nat
  usableAsTool : Bool
  properties : List NodeProperty
  credentials : Option (List NodeCredentialRef)
  deriving Repr, DecidableEq

/-- The part of a credential type description the loader file reads:
`authenticate` presence and the `extends` list. -/
structure ICredentialTypeDescription where
  name : String
  authenticate : Bool
  extendsArr : Option (List String)
  deriving Repr, DecidableEq

/-- A known-nodes entry: `{ className, sourcePath }`. -/
structure KnownNodeEntry where
  className : String
  sourcePath : String
  deriving Repr, DecidableEq

/-- A known-credentials entry: `{ className, sourcePath,
supportedNodes?, extends? }`. -/
structure KnownCredEntry where
  className : String
  sourcePath : String
  supportedNodes : Option (List String)
  extendsArr : Option (List String)
  deriving Repr, DecidableEq

/-- The loader-strategy class of a `DirectoryLoader` instance:
`CustomDirectoryLoader`, `PackageDirectoryLoader`, or
`LazyPackageDirectoryLoader` (which subclasses
`PackageDirectoryLoader`). -/
inductive LoaderKind
  | custom
  | package
  | lazyPackage
  deriving Repr, DecidableEq

/-- `loader instanceof PackageDirectoryLoader`: true for both the
eager and the lazy package loader, false for the custom loader. -/
def LoaderKind.isPackageLoader : LoaderKind → Bool
  | .custom => false
  | .package => true
  | .lazyPackage => true

/-- An insertion-ordered string-keyed map (a JavaScript object used as
a dictionary). -/
abbrev SMap (α : Type) := List (String × α)

/-- `m[k] = v` on a JavaScript object: overwrite in place if the key
exists, else append (insertion order preserved). -/
def setKey {α : Type} (m : SMap α) (k : String) (v : α) : SMap α :=
  if m.any (fun kv => kv.1 = k) then
    m.map (fun kv => if kv.1 = k then (k, v) else kv)
  else m ++ [(k, v)]

/-- `m[k]` on a JavaScript object (`none` when the key is absent). -/
def getKey {α : Type} (m : SMap α) (k : String) : Option α :=
  (m.find? (fun kv => kv.1 = k)).map (fun kv => kv.2)

/-- The keys of the map, in insertion order. -/
def keysOf {α : Type} (m : SMap α) : List String :=
  m.map (fun kv => kv.1)

/-- A `DirectoryLoader` as the registry consumes it after `loadAll()`:
its package name, directory, class, per-package `known` indexes,
materialised `nodeTypes` / `credentialTypes`, and `types` description
lists. The loaded objects themselves are opaque; we keep a `String`
token per loaded type. -/
structure DirectoryLoader where
  packageName : String
  directory : String
  kind : LoaderKind
  knownNodes : SMap KnownNodeEntry
  knownCredentials : SMap KnownCredEntry
  nodeTypes : SMap String
  credentialTypes : SMap String
  typesNodes : List INodeTypeDescription
  typesCredentials : List ICredentialTypeDescription
  deriving Repr, DecidableEq

/-- The aggregate `known` collections. Values are `Option`-wrapped
because `createAiTools` can assign `structuredClone(undefined)` (the
key is then present with value `undefined`). -/
structure KnownAggregate where
  nodes : SMap (Option KnownNodeEntry)
  credentials : SMap (Option KnownCredEntry)
  deriving Repr, DecidableEq

/-- The aggregate `loaded` collections (`LoadedNodesAndCredentials`). -/
structure LoadedAggregate where
  nodes : SMap String
  credentials : SMap String
  deriving Repr, DecidableEq

/-- The aggregate `types` collections (`Types`). -/
structure TypesAggregate where
  nodes : List INodeTypeDescription
  credentials : List ICredentialTypeDescription
  deriving Repr, DecidableEq

/-- The mutable state of the `LoadNodesAndCredentials` service:
`known`, `loaded`, `types`, and the `loaders` record (insertion
ordered, keyed by package name). -/
structure RegistryState where
  known : KnownAggregate
  loaded : LoadedAggregate
  types : TypesAggregate
  loaders : List DirectoryLoader
  deriving Repr, DecidableEq

/-- The three reader-visible collections of the registry, as one
snapshot value. -/
structure RegistryView where
  known : KnownAggregate
  loaded : LoadedAggregate
  types : TypesAggregate
  deriving Repr, DecidableEq

/-- The snapshot a reader of the registry observes. -/
def RegistryState.view (st : RegistryState) : RegistryView :=
  { known := st.known, loaded := st.loaded, types := st.types }

/-! ## Constants -/

/-- Modelled from the spec: `CUSTOM_API_CALL_NAME` comes from
`@/constants`, a file not shown; the spec calls the injected entry the
synthetic "Custom API Call" pseudo-option. Only its identity matters
to the pass, never its contents. -/
def CUSTOM_API_CALL_NAME : String := "Custom API Call"

/-- Modelled from the spec: `CUSTOM_API_CALL_KEY` from `@/constants`,
the `value` stored alongside `CUSTOM_API_CALL_NAME`. -/
def CUSTOM_API_CALL_KEY : String := "__CUSTOM_API_CALL__"

/-- The synthetic option pushed by the injection pass. -/
def customApiCallOption : NodeOption :=
  { name := CUSTOM_API_CALL_NAME, value := CUSTOM_API_CALL_KEY }

/-- The fixed allow-list of proxy-capable parent credential types. -/
def proxyCapableParents : List String := ["oAuth2Api", "googleOAuth2Api", "oAuth1Api"]

/-! ## supportsProxyAuth -/

/-- The per-reference test inside `supportsProxyAuth`'s `.some`
callback: look the referenced credential name up in
`this.types.credentials`; an unknown name is (after a warning) `false`;
otherwise `authenticate !== undefined`, or failing that a *direct*
membership test of the `extends` array against the allow-list. -/
def credSupportsProxy (creds : List ICredentialTypeDescription)
    (ref : NodeCredentialRef) : Bool :=
  match creds.find? (fun t => t.name = ref.name) with
  | none => false
  | some credType =>
    if credType.authenticate then true
    else
      match credType.extendsArr with
      | some parents => parents.any (fun p => p ∈ proxyCapableParents)
      | none => false

/-- `supportsProxyAuth(description)`: whether any of the node's
credential references passes `credSupportsProxy`. A missing
`credentials` field short-circuits to `false`. -/
def supportsProxyAuth (creds : List ICredentialTypeDescription)
    (description : INodeTypeDescription) : Bool :=
  match description.credentials with
  | none => false
  | some refs => refs.any (credSupportsProxy creds)

/-- The warning text logged for an unknown credential name. -/
def unknownCredWarning (nodeName credName : String) : String :=
  "Failed to load Custom API options for the node \x22" ++ nodeName ++
    "\x22: Unknown credential name \x22" ++ credName ++ "\x22"

/-- `supportsProxyAuth` together with the warnings it logs: the `.some`
callback runs left to right and stops at the first capable reference;
each unknown credential name examined logs one warning and counts as
non-proxy-capable. Never fails. -/
def supportsProxyAuthLog (creds : List ICredentialTypeDescription)
    (nodeName : String) : List NodeCredentialRef → Bool × List String
  | [] => (false, [])
  | ref :: rest =>
    match creds.find? (fun t => t.name = ref.name) with
    | none =>
      let r := supportsProxyAuthLog creds nodeName rest
      (r.1, unknownCredWarning nodeName ref.name :: r.2)
    | some credType =>
      if credType.authenticate then (true, [])
      else
        match credType.extendsArr with
        | some parents =>
          if parents.any (fun p => p ∈ proxyCapableParents) then (true, [])
          else supportsProxyAuthLog creds nodeName rest
        | none => supportsProxyAuthLog creds nodeName rest

/-! ## injectCustomApiCallOptions -/

/-- Whether `node.defaultVersion === undefined || node.defaultVersion
=== node.version`. -/
def isLatestVersion (node : INodeTypeDescription) : Bool :=
  node.defaultVersion = none || node.defaultVersion = some node.version

/-- Traverse a list with a fallible step, stopping at the first
raised error (the behaviour of a `forEach` whose callback throws). -/
def mapMExcept {α β : Type} (g : α → Except String β) : List α → Except String (List β)
  | [] => .ok []
  | a :: l =>
    match g a with
    | .error e => .error e
    | .ok b =>
      match mapMExcept g l with
      | .error e => .error e
      | .ok bs => .ok (b :: bs)

/-- The body of the `node.properties.forEach` callback: on a
`resource`/`operation`-named parameter with an `options` array, read
the last option's `name` — on an empty array this is
`undefined.name`, a `TypeError` — and push the synthetic option when
that name differs from `CUSTOM_API_CALL_NAME`. -/
def injectParam (p : NodeProperty) : Except String NodeProperty :=
  if p.name = "resource" ∨ p.name = "operation" then
    match p.options with
    | some opts =>
      match opts.getLast? with
      | none =>
        .error "TypeError: Cannot read properties of undefined (reading name)"
      | some last =>
        if last.name ≠ CUSTOM_API_CALL_NAME then
          .ok { p with options := some (opts ++ [customApiCallOption]) }
        else .ok p
    | none => .ok p
  else .ok p

/-- The per-node body of `injectCustomApiCallOptions`: only
latest-version nodes that pass `supportsProxyAuth` have their
parameters rewritten. -/
def injectNode (creds : List ICredentialTypeDescription)
    (node : INodeTypeDescription) : Except String INodeTypeDescription :=
  if isLatestVersion node then
    if supportsProxyAuth creds node then
      (mapMExcept injectParam node.properties).map
        (fun ps => { node with properties := ps })
    else .ok node
  else .ok node

/-- `injectCustomApiCallOptions()`: rewrite every node description in
`this.types.nodes`, resolving credentials against
`this.types.credentials`. A `TypeError` raised inside the `forEach`
aborts the pass. -/
def injectCustomApiCallOptions (st : RegistryState) : Except String RegistryState :=
  (mapMExcept (injectNode st.types.credentials) st.types.nodes).map
    (fun ns => { st with types := { st.types with nodes := ns } })

/-! ## createAiTools -/

/-- Modelled from the spec: `NodeHelpers.convertNodeToAiTool` lives in
`n8n-workflow`, outside the shown files; the spec describes it as an
external collaborator's fixed pure conversion that renames/retags the
deep-cloned description as a tool variant (not specified further). We
model the rename as appending `"Tool"` to the name and keep every
other field of the clone. -/
def convertNodeToAiTool (d : INodeTypeDescription) : INodeTypeDescription :=
  { d with name := d.name ++ "Tool" }

/-- The `credentialNames.forEach` update: a credential entry whose
`supportedNodes` contains the original node name gets the wrapped name
pushed onto that list (`?.` chains skip `undefined` values). -/
def pushSupportedNode (orig wrapped : String) :
    Option KnownCredEntry → Option KnownCredEntry
  | some c =>
    match c.supportedNodes with
    | some l =>
      if orig ∈ l then some { c with supportedNodes := some (l ++ [wrapped]) }
      else some c
    | none => some c
  | none => none

/-- One iteration of the `for (const usableNode of usableNodes)` loop
in `createAiTools`: push the wrapped clone onto `types.nodes`, clone
the original's known entry under the wrapped name (cloning a missing
entry stores `undefined`), and extend matching credentials'
`supportedNodes`. -/
def createAiToolsStep (st : RegistryState)
    (usableNode : INodeTypeDescription) : RegistryState :=
  let wrapped := convertNodeToAiTool usableNode
  { st with
    types := { st.types with nodes := st.types.nodes ++ [wrapped] },
    known :=
      { nodes := setKey st.known.nodes wrapped.name
          ((getKey st.known.nodes usableNode.name).join),
        credentials := st.known.credentials.map
          (fun kv => (kv.1, pushSupportedNode usableNode.name wrapped.name kv.2)) } }

/-- `createAiTools()`: filter the `usableAsTool` nodes out of the
current `types.nodes` (a snapshot taken before the loop), then run
`createAiToolsStep` for each. -/
def createAiTools (st : RegistryState) : RegistryState :=
  let usableNodes := st.types.nodes.filter (fun n => n.usableAsTool)
  usableNodes.foldl createAiToolsStep st

/-! ## postProcessLoaders: the merge -/

/-- `path.join(directory, sourcePath)` on `String`. -/
def joinStr (a b : String) : String :=
  String.mk (pathJoin a.data b.data)

/-- The transformed known-nodes entry stored by the merge. -/
def mergeKnownNode (loader : DirectoryLoader) (e : KnownNodeEntry) : KnownNodeEntry :=
  { className := e.className, sourcePath := joinStr loader.directory e.sourcePath }

/-- The transformed known-credentials entry stored by the merge:
`sourcePath` is joined with the loader directory, `supportedNodes` is
package-qualified for `PackageDirectoryLoader` instances (and set to
`undefined` otherwise), `extends` is carried over. -/
def mergeKnownCred (loader : DirectoryLoader) (e : KnownCredEntry) : KnownCredEntry :=
  { className := e.className,
    sourcePath := joinStr loader.directory e.sourcePath,
    supportedNodes :=
      if loader.kind.isPackageLoader then
        e.supportedNodes.map (fun l => l.map
          (fun nodeName => loader.packageName ++ "." ++ nodeName))
      else none,
    extendsArr := e.extendsArr }

/-- The body of the `for (const loader of Object.values(this.loaders))`
loop in `postProcessLoaders`: concatenate the loader's `types` lists,
copy its materialised `nodeTypes` / `credentialTypes` by key, then
copy its known entries through `mergeKnownNode` / `mergeKnownCred`. -/
def mergeLoaderStep (st : RegistryState) (loader : DirectoryLoader) : RegistryState :=
  { st with
    types :=
      { nodes := st.types.nodes ++ loader.typesNodes,
        credentials := st.types.credentials ++ loader.typesCredentials },
    loaded :=
      { nodes := loader.nodeTypes.foldl (fun m kv => setKey m kv.1 kv.2) st.loaded.nodes,
        credentials := loader.credentialTypes.foldl
          (fun m kv => setKey m kv.1 kv.2) st.loaded.credentials },
    known :=
      { nodes := loader.knownNodes.foldl
          (fun m kv => setKey m kv.1 (some (mergeKnownNode loader kv.2))) st.known.nodes,
        credentials := loader.knownCredentials.foldl
          (fun m kv => setKey m kv.1 (some (mergeKnownCred loader kv.2))) st.known.credentials } }

/-- The merge phase of `postProcessLoaders`: reset `known`, `loaded`
and `types` to fresh empty containers, then fold every active loader
in registration order. -/
def mergeLoaders (st : RegistryState) : RegistryState :=
  let cleared : RegistryState :=
    { known := { nodes := [], credentials := [] },
      loaded := { nodes := [], credentials := [] },
      types := { nodes := [], credentials := [] },
      loaders := st.loaders }
  st.loaders.foldl mergeLoaderStep cleared

/-- `postProcessLoaders()` up to its `await`s: merge, then
`createAiTools()`, then `injectCustomApiCallOptions()`. The
post-processor hooks awaited afterwards are external collaborators
and do not write the registry collections. -/
def postProcessLoaders (st : RegistryState) : Except String RegistryState :=
  injectCustomApiCallOptions (createAiTools (mergeLoaders st))

/-! ## runDirectoryLoader and resolveIcon -/

/-- The duplicate-package error message raised by
`runDirectoryLoader`. -/
def duplicatePackageMsg (packageName dir : String) : String :=
  "nodes package " ++ packageName ++ " is already loaded.\n Please delete this second copy at path " ++ dir

/-- `runDirectoryLoader(constructor, dir)`: construct the loader, fail
with the duplicate-package `ApplicationError` when its package name is
already a key of `this.loaders`, otherwise `loadAll()` it (the
`loader` argument here carries its post-`loadAll` collections) and
register it. -/
def runDirectoryLoader (st : RegistryState) (loader : DirectoryLoader) :
    Except String RegistryState :=
  if st.loaders.any (fun l => l.packageName = loader.packageName) then
    .error (duplicatePackageMsg loader.packageName loader.directory)
  else .ok { st with loaders := st.loaders ++ [loader] }

/-- `resolveIcon(packageName, url)`: look the loader up; build
`/icons/<packageName>/` and drop that many characters from the front
of `url` (JavaScript `substring` clamps); `path.resolve` the remainder
against the loader directory; answer the resolved path unless
`path.relative(directory, resolved)` contains `".."`. -/
def resolveIcon (st : RegistryState) (packageName url : String) : Option String :=
  match st.loaders.find? (fun l => l.packageName = packageName) with
  | none => none
  | some loader =>
    let pathPrefix := "/icons/" ++ packageName ++ "/"
    let rest := url.data.drop pathPrefix.length
    let filePath := pathResolve loader.directory.data rest
    if containsDotDot (pathRelative loader.directory.data filePath) then none
    else some (String.mk filePath)

/-! ## setupHotReload -/

/-- The externally visible actions of one debounce-expiry reload
cycle. -/
inductive ReloadAction
  | invalidate (filePath : String)
  | resetLoader (packageName : String)
  | loadAllLoader (packageName : String)
  | rebuildAll (packageNames : List String)
  | broadcastReload
  deriving Repr, DecidableEq

/-- The body of the debounced `reloader` closure in `setupHotReload`,
as an action trace: delete every `require.cache` key under the
loader's real directory, `reset()` then `loadAll()` that loader alone,
run `postProcessLoaders()` (which reads *all* active loaders), then
broadcast `nodeDescriptionUpdated` once. -/
def reloadCycleTrace (requireCache : List String) (st : RegistryState)
    (loader : DirectoryLoader) (realModulePath : String) : List ReloadAction :=
  ((requireCache.filter (fun f => f.startsWith realModulePath)).map
      ReloadAction.invalidate)
    ++ [ReloadAction.resetLoader loader.packageName,
        ReloadAction.loadAllLoader loader.packageName,
        ReloadAction.rebuildAll (st.loaders.map (fun l => l.packageName)),
        ReloadAction.broadcastReload]

/-- Modelled from the spec: lodash `debounce(fn, 100)` is an external
collaborator; per the spec, further change events reset the debounce
timer, coalescing bursts rather than queuing multiple reloads. Given
the ascending times of change events, the callback fires once per
maximal run of events whose successive gaps stay below the window. -/
def debounceFireCount (window : Nat) : List Nat → Nat
  | [] => 0
  | [_] => 1
  | t₁ :: t₂ :: rest =>
    (if window ≤ t₂ - t₁ then 1 else 0) + debounceFireCount window (t₂ :: rest)

/-! ## Reader-visible snapshots during a rebuild -/

/-- The snapshots a concurrent reader can observe at the interleaving
points (`await` boundaries) inside `postProcessLoaders`: the merge,
`createAiTools` and `injectCustomApiCallOptions` all run synchronously
before the first `await`, so the boundary before each of the
`hookCount` awaited post-processors — and the one after the last —
already carries the fully rebuilt state. Hooks are external
collaborators (e.g. settings regeneration) that do not write the
registry collections. -/
def rebuildObservations (st : RegistryState) (hookCount : Nat) :
    Option (List RegistryView) :=
  match postProcessLoaders st with
  | .error _ => none
  | .ok st₁ => some (List.replicate (hookCount + 1) st₁.view)

/-! ## Concrete fixtures used by witnesses and counterexamples -/

/-- A node description fixture (`n8n-nodes-base`-style). -/
def wNodeFoo : INodeTypeDescription :=
  { name := "foo", version := 1, defaultVersion := none, usableAsTool := false,
    properties :=
      [{ name := "resource", options := some [{ name := "Message", value := "message" }] }],
    credentials := some [{ name := "fooApi" }] }

/-- A credential description fixture with a direct proxy-capable parent. -/
def wCredFoo : ICredentialTypeDescription :=
  { name := "fooApi", authenticate := false, extendsArr := some ["oAuth2Api"] }

/-- An installed (lazy) package loader fixture. -/
def wLoaderBase : DirectoryLoader :=
  { packageName := "n8n-nodes-base",
    directory := "/opt/n8n/node_modules/n8n-nodes-base",
    kind := .lazyPackage,
    knownNodes :=
      [("n8n-nodes-base.foo",
        { className := "Foo", sourcePath := "dist/nodes/Foo.node.js" })],
    knownCredentials :=
      [("fooApi",
        { className := "FooApi",
          sourcePath := "dist/credentials/FooApi.credentials.js",
          supportedNodes := some ["foo"], extendsArr := some ["oAuth2Api"] })],
    nodeTypes := [("n8n-nodes-base.foo", "FooClass")],
    credentialTypes := [("fooApi", "FooApiClass")],
    typesNodes := [wNodeFoo],
    typesCredentials := [wCredFoo] }

/-- A custom-directory loader fixture. -/
def wLoaderCustom : DirectoryLoader :=
  { packageName := "CUSTOM", directory := "/home/user/.n8n/custom", kind := .custom,
    knownNodes := [],
    knownCredentials :=
      [("localApi",
        { className := "LocalApi", sourcePath := "LocalApi.credentials.js",
          supportedNodes := some ["localNode"], extendsArr := none })],
    nodeTypes := [], credentialTypes := [], typesNodes := [], typesCredentials := [] }

/-- A registry state with the two fixture loaders registered. -/
def wState : RegistryState :=
  { known := { nodes := [], credentials := [] },
    loaded := { nodes := [], credentials := [] },
    types := { nodes := [], credentials := [] },
    loaders := [wLoaderBase, wLoaderCustom] }

/-- A second copy of the base package (different directory, same name). -/
def wLoaderDup : DirectoryLoader :=
  { wLoaderBase with directory := "/opt/n8n/other/n8n-nodes-base" }

/-- The rebuilt state of `wState` (fixed by `wState_rebuild` below). -/
def wStateAfter : RegistryState :=
  match postProcessLoaders wState with
  | .ok s => s
  | .error _ => wState

/-- The DerivationPass as the spec names it: `createAiTools` followed
by `injectCustomApiCallOptions`, exactly as invoked at the end of
`postProcessLoaders`. -/
def derivationPass (st : RegistryState) : Except String RegistryState :=
  injectCustomApiCallOptions (createAiTools st)

/-- A state holding one `usableAsTool` node, as after a merge. -/
def c2State : RegistryState :=
  { known := { nodes := [], credentials := [] },
    loaded := { nodes := [], credentials := [] },
    types :=
      { nodes :=
          [{ name := "Foo", version := 1, defaultVersion := none, usableAsTool := true,
             properties := [], credentials := none }],
        credentials := [] },
    loaders := [] }

/-- The successful per-parameter rewrite as a pure function: the value
`injectParam` returns whenever it does not fault. -/
def injectParamFn (p : NodeProperty) : NodeProperty :=
  if p.name = "resource" ∨ p.name = "operation" then
    match p.options with
    | some opts =>
      match opts.getLast? with
      | none => p
      | some last =>
        if last.name ≠ CUSTOM_API_CALL_NAME then
          { p with options := some (opts ++ [customApiCallOption]) }
        else p
    | none => p
  else p

/-- The `resource` parameter of the fixture node. -/
def wResourceParam : NodeProperty :=
  { name := "resource", options := some [{ name := "Message", value := "message" }] }

/-- A latest-version proxy-auth node with an empty `operation` options
array. -/
def c10Node : INodeTypeDescription :=
  { name := "bad", version := 1, defaultVersion := none, usableAsTool := false,
    properties := [{ name := "operation", options := some [] }],
    credentials := some [{ name := "fooApi" }] }

/-- A state containing `c10Node` and the proxy-capable credential. -/
def c10State : RegistryState :=
  { known := { nodes := [], credentials := [] },
    loaded := { nodes := [], credentials := [] },
    types := { nodes := [c10Node], credentials := [wCredFoo] },
    loaders := [] }

/-- The condition the code actually implements, as a predicate: some
referenced credential resolves in the aggregate list and either
declares `authenticate` or *directly* lists one of the proxy-capable
parents in its `extends` array. -/
def directProxyCapable (creds : List ICredentialTypeDescription)
    (node : INodeTypeDescription) : Prop :=
  ∃ refs, node.credentials = some refs ∧ ∃ ref ∈ refs, ∃ ct,
    creds.find? (fun t => t.name = ref.name) = some ct ∧
    (ct.authenticate = true ∨
      ∃ ps, ct.extendsArr = some ps ∧ ∃ p ∈ ps, p ∈ proxyCapableParents)

/-- Follows the spec's words, for refutation of the claim: a
credential name is proxy-capable when, "resolving the extends chain
through the aggregate credential list", it declares `authenticate` or
transitively reaches one of the proxy-capable parent type names. The
fuel bounds the chain walk. -/
def specTransitivelyProxyCapable (creds : List ICredentialTypeDescription) :
    Nat → String → Bool
  | 0, _ => false
  | fuel + 1, credName =>
    match creds.find? (fun t => t.name = credName) with
    | none => false
    | some ct =>
      ct.authenticate ||
        (ct.extendsArr.getD []).any
          (fun p => decide (p ∈ proxyCapableParents) ||
            specTransitivelyProxyCapable creds fuel p)

/-- A credential whose `extends` chain reaches `oAuth2Api` only
transitively (through `bApi`). -/
def c1CredA : ICredentialTypeDescription :=
  { name := "aApi", authenticate := false, extendsArr := some ["bApi"] }

/-- The intermediate parent credential, extending `oAuth2Api`
directly. -/
def c1CredB : ICredentialTypeDescription :=
  { name := "bApi", authenticate := false, extendsArr := some ["oAuth2Api"] }

/-- A latest-version node referencing only `aApi`. -/
def c1Node : INodeTypeDescription :=
  { name := "ChainNode", version := 1, defaultVersion := none, usableAsTool := false,
    properties :=
      [{ name := "resource", options := some [{ name := "List", value := "list" }] }],
    credentials := some [{ name := "aApi" }] }

/-- A registry state holding `c1Node` and the two chained
credentials. -/
def c1State : RegistryState :=
  { known := { nodes := [], credentials := [] },
    loaded := { nodes := [], credentials := [] },
    types := { nodes := [c1Node], credentials := [c1CredA, c1CredB] },
    loaders := [] }

/-- A loader with the filesystem root as its directory. -/
def c7Loader : DirectoryLoader :=
  { packageName := "pkg", directory := "/", kind := .custom,
    knownNodes := [], knownCredentials := [], nodeTypes := [],
    credentialTypes := [], typesNodes := [], typesCredentials := [] }

/-- A registry state whose only loader sits at `/`. -/
def c7State : RegistryState :=
  { known := { nodes := [], credentials := [] },
    loaded := { nodes := [], credentials := [] },
    types := { nodes := [], credentials := [] },
    loaders := [c7Loader] }

/-! ### Path lemmas -/

theorem containsDotDot_cons_of (c : Char) (l : List Char)
    (h : containsDotDot l = true) : containsDotDot (c :: l) = true := by
  cases l with
  | nil => simp [containsDotDot] at h
  | cons b rest =>
    simp [containsDotDot]
    right
    exact h

theorem containsDotDot_append_right (a b : List Char)
    (h : containsDotDot b = true) : containsDotDot (a ++ b) = true := by
  induction a with
  | nil => simpa using h
  | cons c a ih => exact containsDotDot_cons_of c _ ih

/-- If one of the segments is `..`, the joined string contains `..`
as a substring (so the JavaScript `includes("..")` test is positive). -/
theorem containsDotDot_joinSegs_of_mem (ss : List (List Char))
    (h : ['.', '.'] ∈ ss) : containsDotDot (joinSegs ss) = true := by
  induction ss with
  | nil => cases h
  | cons s rest ih =>
    rcases List.mem_cons.mp h with h | h
    · subst h
      cases rest with
      | nil => simp [joinSegs, List.intercalate, containsDotDot]
      | cons t ts =>
        have : joinSegs (['.', '.'] :: t :: ts) =
            ['.', '.'] ++ ('/' :: joinSegs (t :: ts)) := by
          simp [joinSegs, List.intercalate]
        rw [this]
        simp [containsDotDot]
    · have hrest : containsDotDot (joinSegs rest) = true := ih h
      cases rest with
      | nil => cases h
      | cons t ts =>
        have : joinSegs (s :: t :: ts) = s ++ ('/' :: joinSegs (t :: ts)) := by
          simp [joinSegs, List.intercalate]
        rw [this]
        exact containsDotDot_append_right _ _
          (containsDotDot_cons_of '/' _ hrest)

/-! ## Generic helpers -/

theorem foldl_induction {α β : Type} (f : β → α → β) (l : List α) (init : β)
    (P : β → Prop) (h0 : P init)
    (hstep : ∀ b a, a ∈ l → P b → P (f b a)) : P (l.foldl f init) := by
  induction l generalizing init with
  | nil => exact h0
  | cons a l ih =>
    exact ih (f init a) (hstep _ _ (by simp) h0)
      (fun b x hx hb => hstep b x (by simp [hx]) hb)

/-! ## SMap lemmas -/

theorem keysOf_map_snd {α β : Type} (m : SMap α) (f : String → α → β) :
    keysOf (m.map (fun kv => (kv.1, f kv.1 kv.2))) = keysOf m := by
  simp [keysOf, List.map_map, Function.comp]

theorem keysOf_setKey {α : Type} (m : SMap α) (k : String) (v : α) (a : String) :
    a ∈ keysOf (setKey m k v) ↔ a ∈ keysOf m ∨ a = k := by
  unfold setKey
  split
  case isTrue h =>
    have hk : k ∈ keysOf m := by
      rcases List.any_eq_true.mp h with ⟨kv, hkv, he⟩
      exact of_decide_eq_true he ▸ List.mem_map_of_mem (fun kv => kv.1) hkv
    have hkeys : keysOf (m.map (fun kv => if kv.1 = k then (k, v) else kv)) = keysOf m := by
      unfold keysOf
      rw [List.map_map]
      apply List.map_congr_left
      intro kv _
      by_cases hkv : kv.1 = k <;> simp [hkv, Function.comp]
    rw [hkeys]
    constructor
    · exact Or.inl
    · rintro (h' | rfl)
      · exact h'
      · exact hk
  case isFalse h =>
    simp [keysOf]

theorem find?_congr_pred {α : Type} (p q : α → Bool) (l : List α)
    (h : ∀ a ∈ l, p a = q a) : l.find? p = l.find? q := by
  induction l with
  | nil => rfl
  | cons a l ih =>
    simp [List.find?, h a (by simp), ih (fun b hb => h b (by simp [hb]))]

theorem find?_setKey_map {α : Type} (m : SMap α) (k k' : String) (v : α) :
    List.find? (fun kv => kv.1 = k')
        (m.map (fun kv => if kv.1 = k then (k, v) else kv)) =
      (List.find? (fun kv => kv.1 = k') m).map
        (fun kv => if kv.1 = k then (k, v) else kv) := by
  rw [List.find?_map]
  congr 1
  apply find?_congr_pred
  intro kv _
  by_cases hkv : kv.1 = k <;> simp [Function.comp, hkv]

theorem getKey_setKey_self {α : Type} (m : SMap α) (k : String) (v : α) :
    getKey (setKey m k v) k = some v := by
  unfold setKey getKey
  split
  case isTrue h =>
    have hsome : (List.find? (fun kv => kv.1 = k) m).isSome = true := by
      rw [List.find?_isSome]
      rcases List.any_eq_true.mp h with ⟨kv, hkv, he⟩
      exact ⟨kv, hkv, he⟩
    rcases Option.isSome_iff_exists.mp hsome with ⟨kv, hkv⟩
    have hk : kv.1 = k := by simpa using List.find?_some hkv
    rw [find?_setKey_map, hkv]
    simp [hk]
  case isFalse h =>
    have hnone : List.find? (fun kv => kv.1 = k) m = none := by
      rw [List.find?_eq_none]
      intro kv hkv hd
      exact h (List.any_eq_true.mpr ⟨kv, hkv, hd⟩)
    rw [List.find?_append, hnone]
    simp [List.find?]

theorem getKey_setKey_ne {α : Type} (m : SMap α) (k k' : String) (v : α)
    (h : k ≠ k') : getKey (setKey m k v) k' = getKey m k' := by
  unfold setKey getKey
  split
  case isTrue _ =>
    rw [find?_setKey_map]
    cases hf : List.find? (fun kv => kv.1 = k') m with
    | none => simp
    | some kv =>
      have hk' : kv.1 = k' := by simpa using List.find?_some hf
      have : kv.1 ≠ k := fun hc => h (hc ▸ hk')
      simp [this]
  case isFalse _ =>
    rw [List.find?_append]
    cases hf : List.find? (fun kv => kv.1 = k') m with
    | none =>
      simp [List.find?, show (decide (k = k')) = false from decide_eq_false h]
    | some kv => simp

theorem getKey_eq_none_iff {α : Type} (m : SMap α) (k : String) :
    getKey m k = none ↔ k ∉ keysOf m := by
  unfold getKey keysOf
  rw [Option.map_eq_none', List.find?_eq_none]
  constructor
  · intro h hk
    rcases List.mem_map.mp hk with ⟨kv, hkv, rfl⟩
    exact h kv hkv (by simp)
  · intro h kv hkv hd
    exact h (List.mem_map.mpr ⟨kv, hkv, by simpa using hd⟩)

theorem getKey_cons {α : Type} (kv : String × α) (l : SMap α) (t : String) :
    getKey (kv :: l) t = if kv.1 = t then some kv.2 else getKey l t := by
  by_cases h : kv.1 = t <;> simp [getKey, List.find?, h]

/-! ## Folding `setKey` over a source map -/

theorem getKey_foldl_setKey_not_mem {α β : Type} (f : β → α)
    (l : List (String × β)) (acc : SMap α) (t : String)
    (h : t ∉ keysOf l) :
    getKey (l.foldl (fun m kv => setKey m kv.1 (f kv.2)) acc) t = getKey acc t := by
  induction l generalizing acc with
  | nil => rfl
  | cons kv l ih =>
    simp only [keysOf, List.map_cons, List.mem_cons, not_or] at h
    rw [List.foldl_cons, ih _ h.2]
    exact getKey_setKey_ne _ _ _ _ (fun hc => h.1 hc.symm)

theorem getKey_foldl_setKey_get {α β : Type} (f : β → α)
    (l : List (String × β)) (acc : SMap α) (t : String) (e : β)
    (hnd : (keysOf l).Nodup)
    (h : getKey l t = some e) :
    getKey (l.foldl (fun m kv => setKey m kv.1 (f kv.2)) acc) t = some (f e) := by
  induction l generalizing acc with
  | nil => simp [getKey] at h
  | cons kv l ih =>
    rw [getKey_cons] at h
    simp only [keysOf, List.map_cons, List.nodup_cons] at hnd
    by_cases hkv : kv.1 = t
    · rw [if_pos hkv] at h
      have he : e = kv.2 := by injection h with h; exact h.symm
      subst hkv
      rw [List.foldl_cons, getKey_foldl_setKey_not_mem f l _ kv.1 hnd.1,
        getKey_setKey_self acc kv.1 (f kv.2), he]
    · rw [if_neg hkv] at h
      rw [List.foldl_cons]
      exact ih _ hnd.2 h

theorem mem_keysOf_foldl_setKey {α β : Type} (f : β → α)
    (l : List (String × β)) (acc : SMap α) (a : String) :
    a ∈ keysOf (l.foldl (fun m kv => setKey m kv.1 (f kv.2)) acc) ↔
      a ∈ keysOf acc ∨ a ∈ keysOf l := by
  induction l generalizing acc with
  | nil => simp [keysOf]
  | cons kv l ih =>
    rw [List.foldl_cons, ih]
    rw [keysOf_setKey]
    simp only [keysOf, List.map_cons, List.mem_cons]
    tauto

/-! ## Characterising the merge -/

theorem mergeLoaderStep_knownCred_none (st : RegistryState)
    (loader : DirectoryLoader) (t : String)
    (h : getKey loader.knownCredentials t = none) :
    getKey (mergeLoaderStep st loader).known.credentials t =
      getKey st.known.credentials t := by
  unfold mergeLoaderStep
  dsimp only
  exact getKey_foldl_setKey_not_mem (fun e => some (mergeKnownCred loader e)) _ _ _
    ((getKey_eq_none_iff _ _).mp h)

theorem mergeLoaderStep_knownCred_some (st : RegistryState)
    (loader : DirectoryLoader) (t : String) (e : KnownCredEntry)
    (hnd : (keysOf loader.knownCredentials).Nodup)
    (h : getKey loader.knownCredentials t = some e) :
    getKey (mergeLoaderStep st loader).known.credentials t =
      some (some (mergeKnownCred loader e)) := by
  unfold mergeLoaderStep
  dsimp only
  exact getKey_foldl_setKey_get (fun e => some (mergeKnownCred loader e)) _ _ _ _ hnd h

theorem mergeLoaderStep_knownNode_none (st : RegistryState)
    (loader : DirectoryLoader) (t : String)
    (h : getKey loader.knownNodes t = none) :
    getKey (mergeLoaderStep st loader).known.nodes t =
      getKey st.known.nodes t := by
  unfold mergeLoaderStep
  dsimp only
  exact getKey_foldl_setKey_not_mem (fun e => some (mergeKnownNode loader e)) _ _ _
    ((getKey_eq_none_iff _ _).mp h)

theorem mergeLoaderStep_knownNode_some (st : RegistryState)
    (loader : DirectoryLoader) (t : String) (e : KnownNodeEntry)
    (hnd : (keysOf loader.knownNodes).Nodup)
    (h : getKey loader.knownNodes t = some e) :
    getKey (mergeLoaderStep st loader).known.nodes t =
      some (some (mergeKnownNode loader e)) := by
  unfold mergeLoaderStep
  dsimp only
  exact getKey_foldl_setKey_get (fun e => some (mergeKnownNode loader e)) _ _ _ _ hnd h

theorem merge_foldl_knownCred_absent (ls : List DirectoryLoader)
    (acc : RegistryState) (t : String)
    (h : ∀ l ∈ ls, getKey l.knownCredentials t = none) :
    getKey ((ls.foldl mergeLoaderStep acc).known.credentials) t =
      getKey acc.known.credentials t := by
  induction ls generalizing acc with
  | nil => rfl
  | cons l ls ih =>
    rw [List.foldl_cons, ih _ (fun x hx => h x (by simp [hx]))]
    exact mergeLoaderStep_knownCred_none _ _ _ (h l (by simp))

theorem merge_foldl_knownNode_absent (ls : List DirectoryLoader)
    (acc : RegistryState) (t : String)
    (h : ∀ l ∈ ls, getKey l.knownNodes t = none) :
    getKey ((ls.foldl mergeLoaderStep acc).known.nodes) t =
      getKey acc.known.nodes t := by
  induction ls generalizing acc with
  | nil => rfl
  | cons l ls ih =>
    rw [List.foldl_cons, ih _ (fun x hx => h x (by simp [hx]))]
    exact mergeLoaderStep_knownNode_none _ _ _ (h l (by simp))

theorem mem_merge_foldl_loadedNodes (ls : List DirectoryLoader)
    (acc : RegistryState) (a : String) :
    a ∈ keysOf ((ls.foldl mergeLoaderStep acc).loaded.nodes) ↔
      a ∈ keysOf acc.loaded.nodes ∨ ∃ l ∈ ls, a ∈ keysOf l.nodeTypes := by
  induction ls generalizing acc with
  | nil => simp
  | cons l ls ih =>
    rw [List.foldl_cons, ih]
    have hstep : a ∈ keysOf (mergeLoaderStep acc l).loaded.nodes ↔
        a ∈ keysOf acc.loaded.nodes ∨ a ∈ keysOf l.nodeTypes := by
      unfold mergeLoaderStep
      dsimp only
      exact mem_keysOf_foldl_setKey (fun e => e) _ _ _
    rw [hstep]
    simp only [List.mem_cons]
    constructor
    · rintro ((h | h) | ⟨x, hx, hh⟩)
      · exact Or.inl h
      · exact Or.inr ⟨l, Or.inl rfl, h⟩
      · exact Or.inr ⟨x, Or.inr hx, hh⟩
    · rintro (h | ⟨x, (rfl | hx), hh⟩)
      · exact Or.inl (Or.inl h)
      · exact Or.inl (Or.inr hh)
      · exact Or.inr ⟨x, hx, hh⟩

theorem mem_merge_foldl_loadedCreds (ls : List DirectoryLoader)
    (acc : RegistryState) (a : String) :
    a ∈ keysOf ((ls.foldl mergeLoaderStep acc).loaded.credentials) ↔
      a ∈ keysOf acc.loaded.credentials ∨ ∃ l ∈ ls, a ∈ keysOf l.credentialTypes := by
  induction ls generalizing acc with
  | nil => simp
  | cons l ls ih =>
    rw [List.foldl_cons, ih]
    have hstep : a ∈ keysOf (mergeLoaderStep acc l).loaded.credentials ↔
        a ∈ keysOf acc.loaded.credentials ∨ a ∈ keysOf l.credentialTypes := by
      unfold mergeLoaderStep
      dsimp only
      exact mem_keysOf_foldl_setKey (fun e => e) _ _ _
    rw [hstep]
    simp only [List.mem_cons]
    constructor
    · rintro ((h | h) | ⟨x, hx, hh⟩)
      · exact Or.inl h
      · exact Or.inr ⟨l, Or.inl rfl, h⟩
      · exact Or.inr ⟨x, Or.inr hx, hh⟩
    · rintro (h | ⟨x, (rfl | hx), hh⟩)
      · exact Or.inl (Or.inl h)
      · exact Or.inl (Or.inr hh)
      · exact Or.inr ⟨x, hx, hh⟩

theorem mergeLoaderStep_knownNodes_mem (acc : RegistryState)
    (l : DirectoryLoader) (a : String) :
    a ∈ keysOf (mergeLoaderStep acc l).known.nodes ↔
      a ∈ keysOf acc.known.nodes ∨ a ∈ keysOf l.knownNodes := by
  unfold mergeLoaderStep
  dsimp only
  exact mem_keysOf_foldl_setKey (fun e => some (mergeKnownNode l e)) _ _ _

theorem mergeLoaderStep_knownCreds_mem (acc : RegistryState)
    (l : DirectoryLoader) (a : String) :
    a ∈ keysOf (mergeLoaderStep acc l).known.credentials ↔
      a ∈ keysOf acc.known.credentials ∨ a ∈ keysOf l.knownCredentials := by
  unfold mergeLoaderStep
  dsimp only
  exact mem_keysOf_foldl_setKey (fun e => some (mergeKnownCred l e)) _ _ _

theorem merge_foldl_knownNodes_mono (ls : List DirectoryLoader)
    (acc : RegistryState) (a : String)
    (ha : a ∈ keysOf acc.known.nodes) :
    a ∈ keysOf ((ls.foldl mergeLoaderStep acc).known.nodes) := by
  induction ls generalizing acc with
  | nil => exact ha
  | cons l ls ih =>
    rw [List.foldl_cons]
    exact ih _ ((mergeLoaderStep_knownNodes_mem acc l a).mpr (Or.inl ha))

theorem merge_foldl_knownCreds_mono (ls : List DirectoryLoader)
    (acc : RegistryState) (a : String)
    (ha : a ∈ keysOf acc.known.credentials) :
    a ∈ keysOf ((ls.foldl mergeLoaderStep acc).known.credentials) := by
  induction ls generalizing acc with
  | nil => exact ha
  | cons l ls ih =>
    rw [List.foldl_cons]
    exact ih _ ((mergeLoaderStep_knownCreds_mem acc l a).mpr (Or.inl ha))

theorem mem_merge_foldl_knownNodes (ls : List DirectoryLoader)
    (acc : RegistryState) (a : String)
    (h : ∃ l ∈ ls, a ∈ keysOf l.knownNodes) :
    a ∈ keysOf ((ls.foldl mergeLoaderStep acc).known.nodes) := by
  induction ls generalizing acc with
  | nil => simp at h
  | cons l ls ih =>
    rw [List.foldl_cons]
    rcases h with ⟨x, hx, hh⟩
    rcases List.mem_cons.mp hx with rfl | hx
    · exact merge_foldl_knownNodes_mono ls _ a
        ((mergeLoaderStep_knownNodes_mem acc x a).mpr (Or.inr hh))
    · exact ih _ ⟨x, hx, hh⟩

theorem mem_merge_foldl_knownCreds (ls : List DirectoryLoader)
    (acc : RegistryState) (a : String)
    (h : ∃ l ∈ ls, a ∈ keysOf l.knownCredentials) :
    a ∈ keysOf ((ls.foldl mergeLoaderStep acc).known.credentials) := by
  induction ls generalizing acc with
  | nil => simp at h
  | cons l ls ih =>
    rw [List.foldl_cons]
    rcases h with ⟨x, hx, hh⟩
    rcases List.mem_cons.mp hx with rfl | hx
    · exact merge_foldl_knownCreds_mono ls _ a
        ((mergeLoaderStep_knownCreds_mem acc x a).mpr (Or.inr hh))
    · exact ih _ ⟨x, hx, hh⟩

/-! ## Preservation facts -/

theorem createAiToolsStep_loaded (st : RegistryState) (n : INodeTypeDescription) :
    (createAiToolsStep st n).loaded = st.loaded := rfl

theorem createAiToolsStep_loaders (st : RegistryState) (n : INodeTypeDescription) :
    (createAiToolsStep st n).loaders = st.loaders := rfl

theorem createAiToolsStep_typesCredentials (st : RegistryState) (n : INodeTypeDescription) :
    (createAiToolsStep st n).types.credentials = st.types.credentials := rfl

theorem createAiToolsStep_knownNodes (st : RegistryState) (n : INodeTypeDescription) :
    (createAiToolsStep st n).known.nodes =
      setKey st.known.nodes (convertNodeToAiTool n).name
        ((getKey st.known.nodes n.name).join) := rfl

theorem createAiTools_loaded (st : RegistryState) :
    (createAiTools st).loaded = st.loaded := by
  unfold createAiTools
  exact foldl_induction createAiToolsStep _ st (fun s => s.loaded = st.loaded) rfl
    (fun b a _ hb => hb)

theorem createAiTools_loaders (st : RegistryState) :
    (createAiTools st).loaders = st.loaders := by
  unfold createAiTools
  exact foldl_induction createAiToolsStep _ st (fun s => s.loaders = st.loaders) rfl
    (fun b a _ hb => hb)

theorem createAiTools_typesCredentials (st : RegistryState) :
    (createAiTools st).types.credentials = st.types.credentials := by
  unfold createAiTools
  exact foldl_induction createAiToolsStep _ st
    (fun s => s.types.credentials = st.types.credentials) rfl
    (fun b a _ hb => hb)

theorem createAiTools_knownNodes_mono (st : RegistryState) (a : String)
    (ha : a ∈ keysOf st.known.nodes) :
    a ∈ keysOf (createAiTools st).known.nodes := by
  unfold createAiTools
  exact foldl_induction createAiToolsStep _ st (fun s => a ∈ keysOf s.known.nodes) ha
    (fun b n _ hb => (keysOf_setKey _ _ _ _).mpr (Or.inl hb))

theorem createAiTools_knownCreds_keys (st : RegistryState) :
    keysOf (createAiTools st).known.credentials = keysOf st.known.credentials := by
  unfold createAiTools
  apply foldl_induction createAiToolsStep _ st
    (fun s => keysOf s.known.credentials = keysOf st.known.credentials) rfl
  intro b n _ hb
  have hstep : keysOf (createAiToolsStep b n).known.credentials =
      keysOf b.known.credentials :=
    keysOf_map_snd b.known.credentials
      (fun _ v => pushSupportedNode n.name (convertNodeToAiTool n).name v)
  show keysOf (createAiToolsStep b n).known.credentials = keysOf st.known.credentials
  rw [hstep, hb]

theorem inject_ok_fields (st st' : RegistryState)
    (h : injectCustomApiCallOptions st = .ok st') :
    st'.known = st.known ∧ st'.loaded = st.loaded ∧ st'.loaders = st.loaders ∧
      st'.types.credentials = st.types.credentials := by
  unfold injectCustomApiCallOptions at h
  cases hm : mapMExcept (injectNode st.types.credentials) st.types.nodes with
  | error e => rw [hm] at h; simp [Except.map] at h
  | ok ns =>
    rw [hm] at h
    simp only [Except.map, Except.ok.injEq] at h
    subst h
    exact ⟨rfl, rfl, rfl, rfl⟩

theorem mergeLoaders_loaders (st : RegistryState) :
    (mergeLoaders st).loaders = st.loaders := by
  unfold mergeLoaders
  exact foldl_induction mergeLoaderStep _ _ (fun s => s.loaders = st.loaders) rfl
    (fun b a _ hb => hb)

theorem mergeLoaders_eq_of_loaders (st₁ st₂ : RegistryState)
    (h : st₁.loaders = st₂.loaders) : mergeLoaders st₁ = mergeLoaders st₂ := by
  unfold mergeLoaders
  rw [h]

theorem postProcess_loaders (st st' : RegistryState)
    (h : postProcessLoaders st = .ok st') : st'.loaders = st.loaders := by
  unfold postProcessLoaders at h
  rcases inject_ok_fields _ _ h with ⟨-, -, hl, -⟩
  rw [hl, createAiTools_loaders, mergeLoaders_loaders]

/-! ## C3: duplicate package registration -/

/-- C3: an attempt to register a loader for a package name that
already has an active loader fails with the duplicate-package
`ApplicationError`; no `.ok` state is produced, so the loader set is
not extended and every previously registered loader is untouched. -/
theorem duplicate_package_registration_fails (st : RegistryState)
    (loader prior : DirectoryLoader)
    (hprior : prior ∈ st.loaders)
    (hname : prior.packageName = loader.packageName) :
    runDirectoryLoader st loader =
      .error (duplicatePackageMsg loader.packageName loader.directory) ∧
    ∀ st' : RegistryState, runDirectoryLoader st loader ≠ .ok st' := by
  have hdup : st.loaders.any (fun l => l.packageName = loader.packageName) = true :=
    List.any_eq_true.mpr ⟨prior, hprior, by simp [hname]⟩
  refine ⟨?_, ?_⟩
  · simp [runDirectoryLoader, hdup]
  · intro st' hc
    rw [runDirectoryLoader, if_pos hdup] at hc
    exact Except.noConfusion hc

/-- C3 witness: the fixture state rejects a second copy of
`n8n-nodes-base`. -/
theorem duplicate_package_registration_fails_witness :
    runDirectoryLoader wState wLoaderDup =
      .error (duplicatePackageMsg wLoaderDup.packageName wLoaderDup.directory) :=
  (duplicate_package_registration_fails wState wLoaderDup wLoaderBase
    (by decide) (by decide)).1

/-! ## C4: loaded types are known after a rebuild -/

/-- C4: after any successful rebuild, every type name in the aggregate
loaded nodes (resp. credentials) map also has an entry in the
aggregate known nodes (resp. credentials) map. The per-loader
containment is modelled from the spec, since `DirectoryLoader` itself
is defined outside the shown files. -/
theorem loaded_subset_known_after_rebuild (st st' : RegistryState)
    (hinv : ∀ l ∈ st.loaders,
      (∀ a ∈ keysOf l.nodeTypes, a ∈ keysOf l.knownNodes) ∧
      (∀ a ∈ keysOf l.credentialTypes, a ∈ keysOf l.knownCredentials))
    (h : postProcessLoaders st = .ok st') :
    (∀ a ∈ keysOf st'.loaded.nodes, a ∈ keysOf st'.known.nodes) ∧
    (∀ a ∈ keysOf st'.loaded.credentials, a ∈ keysOf st'.known.credentials) := by
  unfold postProcessLoaders at h
  rcases inject_ok_fields _ _ h with ⟨hknown, hloaded, -, -⟩
  constructor
  · intro a ha
    rw [hloaded, createAiTools_loaded] at ha
    rw [hknown]
    apply createAiTools_knownNodes_mono
    unfold mergeLoaders at ha ⊢
    rcases (mem_merge_foldl_loadedNodes _ _ _).mp ha with h0 | ⟨l, hl, hal⟩
    · simp [keysOf] at h0
    · exact mem_merge_foldl_knownNodes _ _ _ ⟨l, hl, (hinv l hl).1 a hal⟩
  · intro a ha
    rw [hloaded, createAiTools_loaded] at ha
    rw [hknown, createAiTools_knownCreds_keys]
    unfold mergeLoaders at ha ⊢
    rcases (mem_merge_foldl_loadedCreds _ _ _).mp ha with h0 | ⟨l, hl, hal⟩
    · simp [keysOf] at h0
    · exact mem_merge_foldl_knownCreds _ _ _ ⟨l, hl, (hinv l hl).2 a hal⟩

/-- C4 witness: in the rebuilt fixture state the loaded node
`n8n-nodes-base.foo` is also known. -/
theorem loaded_subset_known_after_rebuild_witness :
    "n8n-nodes-base.foo" ∈ keysOf wStateAfter.known.nodes :=
  (loaded_subset_known_after_rebuild wState wStateAfter
      (by decide) (by rfl)).1
    "n8n-nodes-base.foo" (by decide)

/-! ## C5: the merge qualifies paths and supported nodes -/

/-- C5: the rebuild merge (a) depends only on the loader set — the
three aggregate collections are cleared before the copy, so any prior
aggregate content is irrelevant; (b) copies a loader's known
credential entry with its `sourcePath` joined to the loader directory
and its `supportedNodes` package-qualified exactly when the loader is
an installed (non-custom) `PackageDirectoryLoader`; (c) does the same
`sourcePath` join for known node entries; and (d) leaves no aggregate
entry for a name no loader declares. -/
theorem rebuild_clears_and_qualifies (st : RegistryState)
    (pre post : List DirectoryLoader) (loader : DirectoryLoader)
    (t u : String) (e : KnownCredEntry) (en : KnownNodeEntry)
    (hsplit : st.loaders = pre ++ loader :: post)
    (hndc : (keysOf loader.knownCredentials).Nodup)
    (hndn : (keysOf loader.knownNodes).Nodup)
    (hc : getKey loader.knownCredentials t = some e)
    (hn : getKey loader.knownNodes u = some en)
    (hpostc : ∀ l ∈ post, getKey l.knownCredentials t = none)
    (hpostn : ∀ l ∈ post, getKey l.knownNodes u = none) :
    (∀ st₂ : RegistryState, st₂.loaders = st.loaders →
      mergeLoaders st₂ = mergeLoaders st) ∧
    getKey (mergeLoaders st).known.credentials t =
      some (some
        { className := e.className,
          sourcePath := joinStr loader.directory e.sourcePath,
          supportedNodes :=
            if loader.kind.isPackageLoader then
              e.supportedNodes.map (fun l => l.map
                (fun nodeName => loader.packageName ++ "." ++ nodeName))
            else none,
          extendsArr := e.extendsArr }) ∧
    getKey (mergeLoaders st).known.nodes u =
      some (some
        { className := en.className,
          sourcePath := joinStr loader.directory en.sourcePath }) ∧
    (∀ v : String, (∀ l ∈ st.loaders, getKey l.knownCredentials v = none) →
      getKey (mergeLoaders st).known.credentials v = none) := by
  refine ⟨fun st₂ h₂ => mergeLoaders_eq_of_loaders st₂ st h₂, ?_, ?_, ?_⟩
  · show getKey (mergeLoaders st).known.credentials t =
      some (some (mergeKnownCred loader e))
    unfold mergeLoaders
    rw [hsplit, List.foldl_append, List.foldl_cons]
    rw [merge_foldl_knownCred_absent post _ t hpostc]
    exact mergeLoaderStep_knownCred_some _ _ _ _ hndc hc
  · show getKey (mergeLoaders st).known.nodes u =
      some (some (mergeKnownNode loader en))
    unfold mergeLoaders
    rw [hsplit, List.foldl_append, List.foldl_cons]
    rw [merge_foldl_knownNode_absent post _ u hpostn]
    exact mergeLoaderStep_knownNode_some _ _ _ _ hndn hn
  · intro v hv
    unfold mergeLoaders
    rw [merge_foldl_knownCred_absent st.loaders _ v hv]
    rfl

/-- C5 witness: in the merged fixture state, the `fooApi` credential
entry of the installed package has its source path joined with the
package directory and its `supportedNodes` qualified with the package
name, and the node entry has its source path joined. -/
theorem rebuild_clears_and_qualifies_witness :
    getKey (mergeLoaders wState).known.credentials "fooApi" =
      some (some
        { className := "FooApi",
          sourcePath :=
            "/opt/n8n/node_modules/n8n-nodes-base/dist/credentials/FooApi.credentials.js",
          supportedNodes := some ["n8n-nodes-base.foo"],
          extendsArr := some ["oAuth2Api"] }) ∧
    getKey (mergeLoaders wState).known.nodes "n8n-nodes-base.foo" =
      some (some
        { className := "Foo",
          sourcePath := "/opt/n8n/node_modules/n8n-nodes-base/dist/nodes/Foo.node.js" }) := by
  have h := rebuild_clears_and_qualifies wState [] [wLoaderCustom] wLoaderBase
    "fooApi" "n8n-nodes-base.foo"
    { className := "FooApi", sourcePath := "dist/credentials/FooApi.credentials.js",
      supportedNodes := some ["foo"], extendsArr := some ["oAuth2Api"] }
    { className := "Foo", sourcePath := "dist/nodes/Foo.node.js" }
    (by decide) (by decide) (by decide) (by decide) (by decide)
    (by decide) (by decide)
  refine ⟨?_, ?_⟩
  · rw [h.2.1]; decide
  · rw [h.2.2.1]; decide

/-! ## mapMExcept lemmas -/

theorem mapMExcept_ok_of_all {α β : Type} (g : α → Except String β) (f : α → β)
    (l : List α) (h : ∀ a ∈ l, g a = .ok (f a)) :
    mapMExcept g l = .ok (l.map f) := by
  induction l with
  | nil => rfl
  | cons a l ih =>
    simp [mapMExcept, h a (by simp), ih (fun b hb => h b (by simp [hb]))]

theorem mapMExcept_error_of_mem {α β : Type} (g : α → Except String β)
    (l : List α) (a : α) (e : String) (ha : a ∈ l) (he : g a = .error e) :
    ∃ e', mapMExcept g l = .error e' := by
  induction l with
  | nil => cases ha
  | cons b l ih =>
    rcases List.mem_cons.mp ha with rfl | ha
    · exact ⟨e, by simp [mapMExcept, he]⟩
    · cases hgb : g b with
      | error eb => exact ⟨eb, by simp [mapMExcept, hgb]⟩
      | ok vb =>
        rcases ih ha with ⟨e', he'⟩
        exact ⟨e', by simp [mapMExcept, hgb, he']⟩

theorem mapMExcept_idem {α : Type} (g : α → Except String α)
    (hg : ∀ a b, g a = .ok b → g b = .ok b)
    (l l' : List α) (h : mapMExcept g l = .ok l') :
    mapMExcept g l' = .ok l' := by
  induction l generalizing l' with
  | nil =>
    simp [mapMExcept] at h
    subst h
    rfl
  | cons a l ih =>
    cases hga : g a with
    | error e => simp [mapMExcept, hga] at h
    | ok b =>
      cases hlm : mapMExcept g l with
      | error e => simp [mapMExcept, hga, hlm] at h
      | ok bs =>
        simp [mapMExcept, hga, hlm] at h
        subst h
        simp [mapMExcept, hg a b hga, ih bs hlm]

/-! ## C2: derivation-pass idempotence -/

/-- C2 counterexample: running the DerivationPass twice on the same
aggregate list does *not* produce the same final description list as
running it once — `createAiTools` re-wraps on the second run,
appending a duplicate `FooTool` entry (and a `FooToolTool`). -/
theorem derivation_pass_twice_duplicates :
    (derivationPass c2State).bind derivationPass ≠ derivationPass c2State ∧
    ((derivationPass c2State).bind derivationPass).map
        (fun s => s.types.nodes.map (fun n => n.name)) =
      .ok ["Foo", "FooTool", "FooTool", "FooToolTool"] ∧
    (derivationPass c2State).map (fun s => s.types.nodes.map (fun n => n.name)) =
      .ok ["Foo", "FooTool"] := by
  refine ⟨?_, by rfl, by rfl⟩
  intro hc
  have h1 : ((derivationPass c2State).bind derivationPass).map
      (fun s => s.types.nodes.map (fun n => n.name)) =
      (derivationPass c2State).map (fun s => s.types.nodes.map (fun n => n.name)) := by
    rw [hc]
  rw [show ((derivationPass c2State).bind derivationPass).map
      (fun s => s.types.nodes.map (fun n => n.name)) =
      .ok ["Foo", "FooTool", "FooTool", "FooToolTool"] from rfl] at h1
  rw [show (derivationPass c2State).map (fun s => s.types.nodes.map (fun n => n.name)) =
      .ok ["Foo", "FooTool"] from rfl] at h1
  simp at h1

theorem injectParam_idem (p p' : NodeProperty) (h : injectParam p = .ok p') :
    injectParam p' = .ok p' := by
  unfold injectParam at h ⊢
  by_cases hname : p.name = "resource" ∨ p.name = "operation"
  · rw [if_pos hname] at h
    cases hopt : p.options with
    | none =>
      simp only [hopt] at h
      have hp : p = p' := by injection h
      subst hp
      rw [if_pos hname]
      simp only [hopt]
    | some opts =>
      simp only [hopt] at h
      cases hlast : opts.getLast? with
      | none => simp only [hlast] at h; exact absurd h (by simp)
      | some last =>
        simp only [hlast] at h
        by_cases hn : last.name ≠ CUSTOM_API_CALL_NAME
        · rw [if_pos hn] at h
          have hp : { p with options := some (opts ++ [customApiCallOption]) } = p' := by
            injection h
          subst hp
          dsimp only
          rw [if_pos hname]
          simp only [List.getLast?_concat]
          have hcn : ¬ (customApiCallOption.name ≠ CUSTOM_API_CALL_NAME) := by
            simp [customApiCallOption]
          rw [if_neg hcn]
        · rw [if_neg hn] at h
          have hp : p = p' := by injection h
          subst hp
          rw [if_pos hname]
          simp only [hopt, hlast]
          rw [if_neg hn]
  · rw [if_neg hname] at h
    have hp : p = p' := by injection h
    subst hp
    rw [if_neg hname]

theorem injectNode_idem (creds : List ICredentialTypeDescription)
    (node node' : INodeTypeDescription)
    (h : injectNode creds node = .ok node') :
    injectNode creds node' = .ok node' := by
  unfold injectNode at h ⊢
  by_cases hl : isLatestVersion node = true
  · rw [if_pos hl] at h
    by_cases hp : supportsProxyAuth creds node = true
    · rw [if_pos hp] at h
      cases hm : mapMExcept injectParam node.properties with
      | error e => rw [hm] at h; simp [Except.map] at h
      | ok ps =>
        rw [hm] at h
        simp only [Except.map, Except.ok.injEq] at h
        subst h
        have hl' : isLatestVersion { node with properties := ps } = true := hl
        have hp' : supportsProxyAuth creds { node with properties := ps } = true := by
          unfold supportsProxyAuth at hp ⊢
          exact hp
        rw [if_pos hl', if_pos hp']
        have : mapMExcept injectParam ps = .ok ps :=
          mapMExcept_idem injectParam injectParam_idem _ _ hm
        dsimp only
        rw [this]
        rfl
    · rw [if_neg hp] at h
      have hn : node = node' := by injection h
      subst hn
      rw [if_pos hl, if_neg hp]
  · rw [if_neg hl] at h
    have hn : node = node' := by injection h
    subst hn
    rw [if_neg hl]

theorem injectCustomApiCallOptions_idem (st st₁ : RegistryState)
    (h : injectCustomApiCallOptions st = .ok st₁) :
    injectCustomApiCallOptions st₁ = .ok st₁ := by
  unfold injectCustomApiCallOptions at h ⊢
  cases hm : mapMExcept (injectNode st.types.credentials) st.types.nodes with
  | error e => rw [hm] at h; simp [Except.map] at h
  | ok ns =>
    rw [hm] at h
    simp only [Except.map, Except.ok.injEq] at h
    subst h
    dsimp only
    have : mapMExcept (injectNode st.types.credentials) ns = .ok ns :=
      mapMExcept_idem _ (injectNode_idem st.types.credentials) _ _ hm
    rw [this]
    rfl

/-- C2 amended: the custom-call injection pass alone is idempotent,
and running the full rebuild (`postProcessLoaders`, which clears the
aggregates before re-deriving them from the loaders) twice produces
the same result as running it once; the tool-derivation pass
`createAiTools` run twice *without* an intervening clear is what
duplicates entries. -/
theorem derivation_idempotent_after_clear :
    (∀ st st₁ : RegistryState, injectCustomApiCallOptions st = .ok st₁ →
      injectCustomApiCallOptions st₁ = .ok st₁) ∧
    (∀ st st' : RegistryState, postProcessLoaders st = .ok st' →
      postProcessLoaders st' = postProcessLoaders st) := by
  refine ⟨injectCustomApiCallOptions_idem, ?_⟩
  intro st st' h
  unfold postProcessLoaders
  rw [mergeLoaders_eq_of_loaders st' st (postProcess_loaders st st' h)]

/-- C2 amended witness: re-running the rebuild on the rebuilt fixture
state gives the same answer as the first rebuild. -/
theorem derivation_idempotent_after_clear_witness :
    postProcessLoaders wStateAfter = postProcessLoaders wState :=
  derivation_idempotent_after_clear.2 wState wStateAfter (by rfl)

/-! ## C9: atomic snapshot during rebuild -/

/-- C9: every registry view observable at an interleaving point (an
`await` boundary) during `postProcessLoaders` is a complete snapshot:
the merge, tool derivation and injection run synchronously before the
first `await`, so a concurrent reader sees either the pre-rebuild view
(before the call starts) or the fully rebuilt view, never a mixture of
pre- and post-rebuild collections. -/
theorem rebuild_atomic_snapshot (st : RegistryState) (hookCount : Nat)
    (views : List RegistryView)
    (h : rebuildObservations st hookCount = some views) :
    ∃ st' : RegistryState, postProcessLoaders st = .ok st' ∧ views ≠ [] ∧
      ∀ v ∈ views, v = st'.view ∨ v = st.view := by
  unfold rebuildObservations at h
  cases hp : postProcessLoaders st with
  | error e =>
    simp only [hp] at h
    exact Option.noConfusion h
  | ok st' =>
    simp only [hp, Option.some.injEq] at h
    refine ⟨st', rfl, ?_, ?_⟩
    · rw [← h]
      simp
    · intro v hv
      rw [← h] at hv
      exact Or.inl (List.eq_of_mem_replicate hv)

/-- C9 witness: the fixture rebuild with two post-processor hooks. -/
theorem rebuild_atomic_snapshot_witness :
    ∃ st' : RegistryState, postProcessLoaders wState = .ok st' ∧
      List.replicate 3 wStateAfter.view ≠ [] ∧
      ∀ v ∈ List.replicate 3 wStateAfter.view, v = st'.view ∨ v = wState.view :=
  rebuild_atomic_snapshot wState 2 (List.replicate 3 wStateAfter.view) (by rfl)

/-! ## C6 and C10: the per-parameter rewrite -/

theorem injectParam_ok (p : NodeProperty)
    (h : (p.name = "resource" ∨ p.name = "operation") → p.options ≠ some []) :
    injectParam p = .ok (injectParamFn p) := by
  unfold injectParam injectParamFn
  by_cases hname : p.name = "resource" ∨ p.name = "operation"
  · rw [if_pos hname, if_pos hname]
    cases hopt : p.options with
    | none => rfl
    | some opts =>
      cases hlast : opts.getLast? with
      | none =>
        have he : opts = [] := by
          cases opts with
          | nil => rfl
          | cons o os => simp [List.getLast?_concat] at hlast
        exact absurd (by rw [hopt, he]) (h hname)
      | some last =>
        simp only [hlast]
        by_cases hn : last.name ≠ CUSTOM_API_CALL_NAME
        · rw [if_pos hn, if_pos hn]
        · rw [if_neg hn, if_neg hn]
  · rw [if_neg hname, if_neg hname]

/-- C6: for a latest-version node that supports proxy auth (and whose
matching parameters have non-empty options arrays — the empty case
faults, see the companion safety claim), the injection pass rewrites
every `resource`/`operation`-named parameter that has an options array
so that its list ends with the synthetic Custom API Call option:
exactly one copy is appended when the last existing option is not
already the synthetic one, and nothing is appended when it is. -/
theorem inject_appends_custom_api_call_option
    (creds : List ICredentialTypeDescription) (node : INodeTypeDescription)
    (hlatest : isLatestVersion node = true)
    (hcap : supportsProxyAuth creds node = true)
    (hopts : ∀ p ∈ node.properties,
      (p.name = "resource" ∨ p.name = "operation") → p.options ≠ some []) :
    injectNode creds node =
      .ok { node with properties := node.properties.map injectParamFn } ∧
    ∀ p ∈ node.properties, (p.name = "resource" ∨ p.name = "operation") →
      ∀ opts, p.options = some opts →
        ∃ opts', (injectParamFn p).options = some opts' ∧
          opts'.getLast?.map NodeOption.name = some CUSTOM_API_CALL_NAME ∧
          (opts.getLast?.map NodeOption.name ≠ some CUSTOM_API_CALL_NAME →
            opts' = opts ++ [customApiCallOption]) ∧
          (opts.getLast?.map NodeOption.name = some CUSTOM_API_CALL_NAME →
            opts' = opts) := by
  constructor
  · unfold injectNode
    simp only [hlatest, hcap, if_true]
    rw [mapMExcept_ok_of_all injectParam injectParamFn _
      (fun p hp => injectParam_ok p (hopts p hp))]
    rfl
  · intro p hp hname opts hopt
    have hne : opts ≠ [] := by
      intro hc
      exact hopts p hp hname (by rw [hopt, hc])
    cases hlast : opts.getLast? with
    | none =>
      exfalso
      apply hne
      cases opts with
      | nil => rfl
      | cons o os => simp [List.getLast?_concat] at hlast
    | some last =>
      have hfn : (injectParamFn p).options =
          if last.name ≠ CUSTOM_API_CALL_NAME then
            some (opts ++ [customApiCallOption])
          else some opts := by
        unfold injectParamFn
        rw [if_pos hname]
        simp only [hopt, hlast]
        by_cases hn : last.name ≠ CUSTOM_API_CALL_NAME
        · rw [if_pos hn, if_pos hn]
        · rw [if_neg hn, if_neg hn]
          exact hopt
      by_cases hn : last.name ≠ CUSTOM_API_CALL_NAME
      · refine ⟨opts ++ [customApiCallOption], by rw [hfn, if_pos hn], ?_,
          fun _ => rfl, ?_⟩
        · simp [List.getLast?_concat, customApiCallOption]
        · intro hc
          simp [hlast] at hc
          exact absurd hc hn
      · push_neg at hn
        refine ⟨opts, by rw [hfn, if_neg (by simp [hn])], ?_, ?_, fun _ => rfl⟩
        · simp [hlast, hn]
        · intro hc
          exfalso
          apply hc
          simp [hlast, hn]

/-- C6 witness: the fixture node `foo` gets exactly one Custom API
Call option appended to its `resource` parameter. -/
theorem inject_appends_custom_api_call_option_witness :
    injectNode [wCredFoo] wNodeFoo =
      .ok { wNodeFoo with properties := wNodeFoo.properties.map injectParamFn } ∧
    (injectParamFn wResourceParam).options =
      some [{ name := "Message", value := "message" }, customApiCallOption] := by
  have h := inject_appends_custom_api_call_option [wCredFoo] wNodeFoo
    (by decide) (by decide) (by decide)
  refine ⟨h.1, ?_⟩
  rcases h.2 wResourceParam
    (by decide) (by decide) [{ name := "Message", value := "message" }] rfl with
    ⟨opts', hopts', -, happend, -⟩
  rw [hopts', happend (by decide)]
  decide

/-- C10: the injection pass reads the last element of a matching
parameter's options array without an emptiness guard: on a
latest-version proxy-auth node with an empty `resource`/`operation`
options array the whole pass faults (the rebuild raises the modelled
TypeError) instead of skipping that parameter, while under the
precondition that every matching options array is non-empty the
per-node injection always succeeds. -/
theorem inject_faults_on_empty_options (st : RegistryState)
    (node : INodeTypeDescription) (p : NodeProperty)
    (hnode : node ∈ st.types.nodes)
    (hlatest : isLatestVersion node = true)
    (hcap : supportsProxyAuth st.types.credentials node = true)
    (hp : p ∈ node.properties)
    (hname : p.name = "resource" ∨ p.name = "operation")
    (hempty : p.options = some []) :
    (∃ e, injectCustomApiCallOptions st = .error e) ∧
    (∀ (creds : List ICredentialTypeDescription) (node₂ : INodeTypeDescription),
      (∀ q ∈ node₂.properties,
        (q.name = "resource" ∨ q.name = "operation") → q.options ≠ some []) →
      ∃ node₂', injectNode creds node₂ = .ok node₂') := by
  constructor
  · have hpe : injectParam p =
        .error "TypeError: Cannot read properties of undefined (reading name)" := by
      unfold injectParam
      rw [if_pos hname]
      simp [hempty]
    rcases mapMExcept_error_of_mem injectParam node.properties p _ hp hpe with ⟨e', he'⟩
    have hnode_err : injectNode st.types.credentials node = .error e' := by
      unfold injectNode
      simp only [hlatest, hcap, if_true]
      rw [he']
      rfl
    rcases mapMExcept_error_of_mem (injectNode st.types.credentials)
      st.types.nodes node _ hnode hnode_err with ⟨e₂, he₂⟩
    refine ⟨e₂, ?_⟩
    unfold injectCustomApiCallOptions
    rw [he₂]
    rfl
  · intro creds node₂ hq
    by_cases hl : isLatestVersion node₂ = true
    · by_cases hcp : supportsProxyAuth creds node₂ = true
      · refine ⟨{ node₂ with properties := node₂.properties.map injectParamFn }, ?_⟩
        unfold injectNode
        simp only [hl, hcp, if_true]
        rw [mapMExcept_ok_of_all injectParam injectParamFn _
          (fun q hqq => injectParam_ok q (hq q hqq))]
        rfl
      · exact ⟨node₂, by unfold injectNode; simp [hl, hcp]⟩
    · exact ⟨node₂, by unfold injectNode; simp [hl]⟩

/-- C10 witness: the empty-options fixture faults the pass. -/
theorem inject_faults_on_empty_options_witness :
    ∃ e, injectCustomApiCallOptions c10State = .error e :=
  (inject_faults_on_empty_options c10State c10Node
    { name := "operation", options := some [] }
    (by decide) (by decide) (by decide) (by decide) (by decide) (by decide)).1

/-! ## C1: which credentials enable the injection -/

/-- C1 counterexample: `aApi` transitively extends `oAuth2Api` (the
spec-side transitive predicate holds with the whole aggregate list in
scope), yet `supportsProxyAuth` — which only inspects the *direct*
`extends` array — rejects it, and the injection pass leaves the node
untouched: no Custom API Call option is added. -/
theorem transitive_extends_not_injected :
    specTransitivelyProxyCapable [c1CredA, c1CredB] 2 "aApi" = true ∧
    supportsProxyAuth [c1CredA, c1CredB] c1Node = false ∧
    injectCustomApiCallOptions c1State = .ok c1State := by
  refine ⟨by decide, by decide, by rfl⟩

theorem credSupportsProxy_iff (creds : List ICredentialTypeDescription)
    (ref : NodeCredentialRef) :
    credSupportsProxy creds ref = true ↔
      ∃ ct, creds.find? (fun t => t.name = ref.name) = some ct ∧
        (ct.authenticate = true ∨
          ∃ ps, ct.extendsArr = some ps ∧ ∃ p ∈ ps, p ∈ proxyCapableParents) := by
  unfold credSupportsProxy
  cases hf : creds.find? (fun t => t.name = ref.name) with
  | none => simp
  | some ct =>
    cases hab : ct.authenticate with
    | true => simp [hab]
    | false =>
      cases hx : ct.extendsArr with
      | none => simp [hab, hx]
      | some ps => simp [hab, hx, List.any_eq_true]

theorem supportsProxyAuth_iff_direct (creds : List ICredentialTypeDescription)
    (node : INodeTypeDescription) :
    supportsProxyAuth creds node = true ↔ directProxyCapable creds node := by
  unfold supportsProxyAuth directProxyCapable
  cases hc : node.credentials with
  | none => simp
  | some refs =>
    simp only [Option.some.injEq, List.any_eq_true]
    constructor
    · rintro ⟨ref, hr, hcred⟩
      exact ⟨refs, rfl, ref, hr, (credSupportsProxy_iff creds ref).mp hcred⟩
    · rintro ⟨refs', heq, ref, hr, hcred⟩
      cases heq
      exact ⟨ref, hr, (credSupportsProxy_iff creds ref).mpr hcred⟩

theorem supportsProxyAuthLog_fst (creds : List ICredentialTypeDescription)
    (nm : String) (refs : List NodeCredentialRef) :
    (supportsProxyAuthLog creds nm refs).1 = refs.any (credSupportsProxy creds) := by
  induction refs with
  | nil => rfl
  | cons ref rest ih =>
    simp only [supportsProxyAuthLog, List.any_cons]
    cases hf : creds.find? (fun t => t.name = ref.name) with
    | none => simp [credSupportsProxy, hf, ih]
    | some ct =>
      cases hab : ct.authenticate with
      | true => simp [credSupportsProxy, hf, hab]
      | false =>
        cases hx : ct.extendsArr with
        | none => simp [credSupportsProxy, hf, hab, hx, ih]
        | some ps =>
          by_cases hany : ps.any (fun p => decide (p ∈ proxyCapableParents)) = true
          · simp [credSupportsProxy, hf, hab, hx, hany]
          · simp only [Bool.not_eq_true] at hany
            simp [credSupportsProxy, hf, hab, hx, hany, ih]

theorem supportsProxyAuthLog_warns (creds : List ICredentialTypeDescription)
    (nm : String) (refs : List NodeCredentialRef) (ref : NodeCredentialRef)
    (hfalse : (supportsProxyAuthLog creds nm refs).1 = false)
    (hr : ref ∈ refs)
    (hfind : creds.find? (fun t => t.name = ref.name) = none) :
    unknownCredWarning nm ref.name ∈ (supportsProxyAuthLog creds nm refs).2 := by
  induction refs with
  | nil => cases hr
  | cons r rest ih =>
    rcases List.mem_cons.mp hr with rfl | hr
    · simp [supportsProxyAuthLog, hfind]
    · cases hf : creds.find? (fun t => t.name = r.name) with
      | none =>
        simp only [supportsProxyAuthLog, hf] at hfalse ⊢
        exact List.mem_cons_of_mem _ (ih hfalse hr)
      | some ct =>
        cases hab : ct.authenticate with
        | true => simp [supportsProxyAuthLog, hf, hab] at hfalse
        | false =>
          cases hx : ct.extendsArr with
          | none =>
            simp only [supportsProxyAuthLog, hf, hab, hx] at hfalse ⊢
            exact ih hfalse hr
          | some ps =>
            by_cases hany : ps.any (fun p => decide (p ∈ proxyCapableParents)) = true
            · simp [supportsProxyAuthLog, hf, hab, hx, hany] at hfalse
            · simp only [Bool.not_eq_true] at hany
              simp only [supportsProxyAuthLog, hf, hab, hx, hany,
                if_false] at hfalse ⊢
              exact ih hfalse hr

/-- C1 amended: the synthetic Custom API Call option is added exactly
when a referenced credential resolves in the aggregate list and either
declares `authenticate` or *directly* lists `oAuth2Api`,
`googleOAuth2Api` or `oAuth1Api` in its `extends` array (no chain
resolution happens); a credential *reference* that cannot be resolved
is logged as a warning (when no capable reference precedes it) and
treated as non-proxy-capable, never fatal — the outcome with logging
equals the plain outcome. -/
theorem injection_matches_direct_extends (creds : List ICredentialTypeDescription)
    (node : INodeTypeDescription)
    (hlatest : isLatestVersion node = true)
    (hopts : ∀ p ∈ node.properties,
      (p.name = "resource" ∨ p.name = "operation") → p.options ≠ some []) :
    (supportsProxyAuth creds node = true ↔ directProxyCapable creds node) ∧
    (¬ directProxyCapable creds node → injectNode creds node = .ok node) ∧
    (directProxyCapable creds node →
      injectNode creds node =
        .ok { node with properties := node.properties.map injectParamFn }) ∧
    (∀ refs, node.credentials = some refs →
      (supportsProxyAuthLog creds node.name refs).1 = supportsProxyAuth creds node ∧
      ((supportsProxyAuthLog creds node.name refs).1 = false →
        ∀ ref ∈ refs, creds.find? (fun t => t.name = ref.name) = none →
          unknownCredWarning node.name ref.name ∈
            (supportsProxyAuthLog creds node.name refs).2)) := by
  refine ⟨supportsProxyAuth_iff_direct creds node, ?_, ?_, ?_⟩
  · intro hnd
    have hfalse : supportsProxyAuth creds node = false := by
      cases hsp : supportsProxyAuth creds node with
      | false => rfl
      | true => exact absurd ((supportsProxyAuth_iff_direct creds node).mp hsp) hnd
    unfold injectNode
    simp [hlatest, hfalse]
  · intro hd
    have htrue : supportsProxyAuth creds node = true :=
      (supportsProxyAuth_iff_direct creds node).mpr hd
    unfold injectNode
    simp only [hlatest, htrue, if_true]
    rw [mapMExcept_ok_of_all injectParam injectParamFn _
      (fun p hp => injectParam_ok p (hopts p hp))]
    rfl
  · intro refs hrefs
    constructor
    · rw [supportsProxyAuthLog_fst]
      unfold supportsProxyAuth
      simp [hrefs]
    · intro hfalse ref hr hfind
      exact supportsProxyAuthLog_warns creds node.name refs ref hfalse hr hfind

/-- C1 amended witness: the chained fixture is rejected (node left
unchanged) while the directly extending fixture credential makes the
injection rewrite the node. -/
theorem injection_matches_direct_extends_witness :
    injectNode [c1CredA, c1CredB] c1Node = .ok c1Node ∧
    injectNode [wCredFoo] wNodeFoo =
      .ok { wNodeFoo with properties := wNodeFoo.properties.map injectParamFn } := by
  have hA := injection_matches_direct_extends [c1CredA, c1CredB] c1Node
    (by decide) (by decide)
  have hB := injection_matches_direct_extends [wCredFoo] wNodeFoo
    (by decide) (by decide)
  exact ⟨hA.2.1 (fun hd => absurd (hA.1.mpr hd) (by decide)),
    hB.2.2.1 (hB.1.mp (by decide))⟩

/-! ## C8: the hot-reload cycle -/

theorem count_broadcast_map_invalidate (l : List String) :
    (l.map ReloadAction.invalidate).count ReloadAction.broadcastReload = 0 := by
  rw [List.count_eq_zero]
  intro hc
  rcases List.mem_map.mp hc with ⟨f, -, hf⟩
  cases hf

theorem debounceFireCount_coalesce (window : Nat) (events : List Nat)
    (hne : events ≠ [])
    (hburst : events.Chain' (fun a b => b - a < window)) :
    debounceFireCount window events = 1 := by
  induction events with
  | nil => cases hne rfl
  | cons t rest ih =>
    cases rest with
    | nil => rfl
    | cons t₂ rest₂ =>
      rcases List.chain'_cons.mp hburst with ⟨hgap, htail⟩
      have hno : ¬ (window ≤ t₂ - t) := by omega
      simp only [debounceFireCount, if_neg hno, Nat.zero_add]
      exact ih (by simp) htail

/-- C8: a debounce-expiry reload cycle performs, in order: the
invalidation of exactly the runtime-cache entries under the changed
loader's real directory, then `reset()` and `loadAll()` on that loader
alone, then one full rebuild that reads *all* registered loaders
(never only the changed one), then exactly one reload-complete
broadcast as the final action; and change events whose successive gaps
stay inside the debounce window coalesce into exactly one firing of
the cycle. -/
theorem hot_reload_cycle_order (requireCache : List String) (st : RegistryState)
    (loader : DirectoryLoader) (realModulePath : String)
    (window : Nat) (events : List Nat)
    (hne : events ≠ [])
    (hburst : events.Chain' (fun a b => b - a < window)) :
    (reloadCycleTrace requireCache st loader realModulePath =
      ((requireCache.filter (fun f => f.startsWith realModulePath)).map
          ReloadAction.invalidate)
        ++ [ReloadAction.resetLoader loader.packageName,
            ReloadAction.loadAllLoader loader.packageName,
            ReloadAction.rebuildAll (st.loaders.map (fun l => l.packageName)),
            ReloadAction.broadcastReload]) ∧
    (reloadCycleTrace requireCache st loader realModulePath).count
        ReloadAction.broadcastReload = 1 ∧
    (reloadCycleTrace requireCache st loader realModulePath).getLast? =
      some ReloadAction.broadcastReload ∧
    (∀ f, ReloadAction.invalidate f ∈
        reloadCycleTrace requireCache st loader realModulePath ↔
      f ∈ requireCache ∧ f.startsWith realModulePath = true) ∧
    debounceFireCount window events = 1 := by
  refine ⟨rfl, ?_, ?_, ?_, debounceFireCount_coalesce window events hne hburst⟩
  · unfold reloadCycleTrace
    rw [List.count_append, count_broadcast_map_invalidate]
    simp [List.count_cons]
  · unfold reloadCycleTrace
    rw [List.getLast?_append]
    rfl
  · intro f
    unfold reloadCycleTrace
    rw [List.mem_append]
    constructor
    · rintro (hl | hr)
      · rcases List.mem_map.mp hl with ⟨g, hg, hfg⟩
        cases hfg
        exact List.mem_filter.mp hg
      · simp at hr
    · intro hf
      exact Or.inl (List.mem_map_of_mem _ (List.mem_filter.mpr hf))

/-- C8 witness: a concrete cache, state and three-event burst. -/
theorem hot_reload_cycle_order_witness :
    (reloadCycleTrace
        ["/opt/n8n/node_modules/n8n-nodes-base/dist/nodes/Foo.node.js",
         "/opt/n8n/node_modules/other/index.js"]
        wState wLoaderBase "/opt/n8n/node_modules/n8n-nodes-base/").count
      ReloadAction.broadcastReload = 1 ∧
    debounceFireCount 100 [5, 20, 95] = 1 := by
  have h := hot_reload_cycle_order
    ["/opt/n8n/node_modules/n8n-nodes-base/dist/nodes/Foo.node.js",
     "/opt/n8n/node_modules/other/index.js"]
    wState wLoaderBase "/opt/n8n/node_modules/n8n-nodes-base/"
    100 [5, 20, 95] (by decide) (by norm_num [List.chain'_cons])
  exact ⟨h.2.1, h.2.2.2.2⟩

/-! ## C7: path lemmas for resolveIcon -/

theorem splitSegs_cons_slash (l : List Char) :
    splitSegs ('/' :: l) = splitSegs l := by
  simp [splitSegs, splitSegsAux]

theorem splitSegsAux_no_slash (p : List Char) (cur : List Char)
    (hcur : '/' ∉ cur) : ∀ s ∈ splitSegsAux p cur, '/' ∉ s := by
  induction p generalizing cur with
  | nil =>
    intro s hs
    simp only [splitSegsAux, List.mem_singleton] at hs
    subst hs
    simpa using hcur
  | cons c rest ih =>
    intro s hs
    by_cases hc : c = '/'
    · subst hc
      simp only [splitSegsAux, if_pos rfl] at hs
      rcases List.mem_cons.mp hs with rfl | hs
      · simpa using hcur
      · exact ih [] (by simp) s hs
    · simp only [splitSegsAux, if_neg hc] at hs
      refine ih (c :: cur) ?_ s hs
      intro hmem
      rcases List.mem_cons.mp hmem with h | h
      · exact hc h.symm
      · exact hcur h

theorem splitSegs_ok (p : List Char) :
    ∀ s ∈ splitSegs p, s ≠ [] ∧ '/' ∉ s := by
  intro s hs
  unfold splitSegs at hs
  rcases List.mem_filter.mp hs with ⟨hmem, hne⟩
  exact ⟨by simpa using hne, splitSegsAux_no_slash p [] (by simp) s hmem⟩

theorem normSegs_inv (ss : List (List Char)) :
    ∀ x ∈ normSegs true ss, x ∈ ss ∧ x ≠ ['.'] ∧ x ≠ ['.', '.'] := by
  unfold normSegs
  apply foldl_induction (normStep true) ss []
    (fun acc => ∀ x ∈ acc, x ∈ ss ∧ x ≠ ['.'] ∧ x ≠ ['.', '.'])
  · intro x hx
    cases hx
  · intro acc seg hseg hacc x hx
    unfold normStep at hx
    by_cases h1 : seg = ['.']
    · rw [if_pos h1] at hx
      exact hacc x hx
    · rw [if_neg h1] at hx
      by_cases h2 : seg = ['.', '.']
      · rw [if_pos h2] at hx
        cases hlast : acc.getLast? with
        | none =>
          simp only [hlast, if_pos rfl] at hx
          cases hx
        | some l =>
          have hl : l ∈ acc := List.mem_of_mem_getLast? (by simp [hlast])
          have hlne : l ≠ ['.', '.'] := (hacc l hl).2.2
          simp only [hlast, if_neg hlne] at hx
          exact hacc x ((List.dropLast_sublist acc).subset hx)
      · rw [if_neg h2] at hx
        rcases List.mem_append.mp hx with hx | hx
        · exact hacc x hx
        · rcases List.mem_singleton.mp hx with rfl
          exact ⟨hseg, h1, h2⟩

theorem normStep_dotdot (acc : List (List Char))
    (h : ['.', '.'] ∉ acc) :
    normStep true acc ['.', '.'] = acc.dropLast := by
  unfold normStep
  rw [if_neg (by decide), if_pos rfl]
  cases hlast : acc.getLast? with
  | none =>
    have hnil : acc = [] := List.getLast?_eq_none_iff.mp hlast
    simp [hnil]
  | some l =>
    have hl : l ∈ acc := List.mem_of_mem_getLast? (by simp [hlast])
    have hlne : l ≠ ['.', '.'] := fun hc => h (hc ▸ hl)
    simp only [if_neg hlne]

theorem normStep_plain (acc : List (List Char)) (seg : List Char)
    (h1 : seg ≠ ['.']) (h2 : seg ≠ ['.', '.']) :
    normStep true acc seg = acc ++ [seg] := by
  unfold normStep
  rw [if_neg h1, if_neg h2]

theorem foldl_normStep_no_dots (l : List (List Char))
    (h : ∀ x ∈ l, x ≠ ['.'] ∧ x ≠ ['.', '.']) (acc : List (List Char)) :
    l.foldl (normStep true) acc = acc ++ l := by
  induction l generalizing acc with
  | nil => simp
  | cons seg l ih =>
    rw [List.foldl_cons, normStep_plain acc seg (h seg (by simp)).1 (h seg (by simp)).2,
      ih (fun x hx => h x (by simp [hx])) (acc ++ [seg])]
    simp

theorem splitSegsAux_append_no_slash (s : List Char) (l cur : List Char)
    (h : '/' ∉ s) :
    splitSegsAux (s ++ l) cur = splitSegsAux l (s.reverse ++ cur) := by
  induction s generalizing cur with
  | nil => simp
  | cons c s ih =>
    have hc : c ≠ '/' := fun hc => h (by simp [hc])
    simp only [List.cons_append, splitSegsAux, if_neg hc]
    rw [show (c :: s).reverse = s.reverse ++ [c] from by simp, List.append_assoc]
    exact ih (c :: cur) (fun hs => h (by simp [hs]))

theorem splitSegs_joinSegs (ss : List (List Char))
    (h : ∀ s ∈ ss, s ≠ [] ∧ '/' ∉ s) :
    splitSegs (joinSegs ss) = ss := by
  induction ss with
  | nil => decide
  | cons s rest ih =>
    cases rest with
    | nil =>
      have hj : joinSegs [s] = s := by simp [joinSegs, List.intercalate]
      rw [hj]
      unfold splitSegs
      have haux : splitSegsAux s [] = [s] := by
        have h0 := splitSegsAux_append_no_slash s [] [] (h s (by simp)).2
        rw [List.append_nil] at h0
        rw [h0]
        simp [splitSegsAux]
      rw [haux]
      simp [(h s (by simp)).1]
    | cons t ts =>
      have hj : joinSegs (s :: t :: ts) = s ++ ('/' :: joinSegs (t :: ts)) := by
        simp [joinSegs, List.intercalate]
      rw [hj]
      unfold splitSegs
      rw [splitSegsAux_append_no_slash s _ [] (h s (by simp)).2]
      have hstep : splitSegsAux ('/' :: joinSegs (t :: ts)) (s.reverse ++ []) =
          s :: splitSegsAux (joinSegs (t :: ts)) [] := by
        simp [splitSegsAux]
      rw [hstep, List.filter_cons_of_pos (by simp [(h s (by simp)).1])]
      have ihr := ih (fun x hx => h x (by simp [hx]))
      unfold splitSegs at ihr
      rw [ihr]

theorem commonPrefixLen_le (a b : List (List Char)) :
    commonPrefixLen a b ≤ a.length := by
  induction a generalizing b with
  | nil => simp [commonPrefixLen]
  | cons x as ih =>
    cases b with
    | nil => simp [commonPrefixLen]
    | cons y bs =>
      unfold commonPrefixLen
      by_cases hxy : x = y
      · rw [if_pos hxy]
        simpa using ih bs
      · rw [if_neg hxy]
        simp

theorem prefix_of_commonPrefixLen_eq_length (a b : List (List Char))
    (h : commonPrefixLen a b = a.length) : a <+: b := by
  induction a generalizing b with
  | nil => simp
  | cons x as ih =>
    cases b with
    | nil => simp [commonPrefixLen] at h
    | cons y bs =>
      unfold commonPrefixLen at h
      by_cases hxy : x = y
      · rw [if_pos hxy] at h
        subst hxy
        simp only [List.length_cons, Nat.add_right_cancel_iff] at h
        rcases ih bs h with ⟨tail, ht⟩
        exact ⟨tail, by rw [List.cons_append, ht]⟩
      · rw [if_neg hxy] at h
        simp at h

theorem resolveIcon_none_of_no_loader (st : RegistryState)
    (packageName url : String)
    (hfind : st.loaders.find? (fun l => l.packageName = packageName) = none) :
    resolveIcon st packageName url = none := by
  unfold resolveIcon
  rw [hfind]

theorem resolveIcon_none_of_traversal (st : RegistryState)
    (packageName url : String) (loader : DirectoryLoader)
    (hfind : st.loaders.find? (fun l => l.packageName = packageName) = some loader)
    (hmem : ['.', '.'] ∈ pathRelativeSegs loader.directory.data
      (pathResolve loader.directory.data
        (url.data.drop ("/icons/" ++ packageName ++ "/").length))) :
    resolveIcon st packageName url = none := by
  unfold resolveIcon
  rw [hfind]
  have hdd : containsDotDot (pathRelative loader.directory.data
      (pathResolve loader.directory.data
        (url.data.drop ("/icons/" ++ packageName ++ "/").length))) = true :=
    containsDotDot_joinSegs_of_mem _ hmem
  simp only [hdd, if_true]

/-- C7 counterexample: for a package whose loader directory is the
root `/`, the traversal probe resolves to `/etc/passwd`, whose
relative form from `/` is `etc/passwd` — no `..` — so `resolveIcon`
returns a result, refuting "returns no result for every package". -/
theorem resolveIcon_root_dir_counterexample :
    resolveIcon c7State "pkg" "/icons/pkg/../../etc/passwd" = some "/etc/passwd" := by
  decide

/-- C7 amended: `resolveIcon` returns no result when the package has
no active loader; it returns no result whenever the resolved path's
relative form with respect to the loader's directory contains an
upward (`..`) traversal segment — confinement is decided on the
relative path, not by prefix-matching the absolute one; and the probe
`/icons/<pkg>/../../etc/passwd` returns no result for every package
whose loader directory does not normalise to the root, to `/etc`, or
to a directory ending in `/etc/passwd` (in those residual cases the
probe lands inside the directory itself and a path is returned — see
the counterexample at `/`). -/
theorem resolveIcon_traversal_safe (st : RegistryState) (packageName : String) :
    (st.loaders.find? (fun l => l.packageName = packageName) = none →
      ∀ url, resolveIcon st packageName url = none) ∧
    (∀ (loader : DirectoryLoader) (url : String),
      st.loaders.find? (fun l => l.packageName = packageName) = some loader →
      ['.', '.'] ∈ pathRelativeSegs loader.directory.data
        (pathResolve loader.directory.data
          (url.data.drop ("/icons/" ++ packageName ++ "/").length)) →
      resolveIcon st packageName url = none) ∧
    (∀ loader : DirectoryLoader,
      st.loaders.find? (fun l => l.packageName = packageName) = some loader →
      normSegs true (splitSegs loader.directory.data) ≠ [] →
      normSegs true (splitSegs loader.directory.data) ≠ [['e', 't', 'c']] →
      ¬ ([['e', 't', 'c'], ['p', 'a', 's', 's', 'w', 'd']] <:+
          normSegs true (splitSegs loader.directory.data)) →
      resolveIcon st packageName
        ("/icons/" ++ packageName ++ "/../../etc/passwd") = none) := by
  refine ⟨fun hfind url => resolveIcon_none_of_no_loader st packageName url hfind,
    fun loader url hfind hmem =>
      resolveIcon_none_of_traversal st packageName url loader hfind hmem,
    ?_⟩
  intro loader hfind hne hetc hsuf
  apply resolveIcon_none_of_traversal st packageName _ loader hfind
  -- the URL remainder after stripping the icon prefix
  have hcat : ("/icons/" ++ packageName ++ "/../../etc/passwd") =
      ("/icons/" ++ packageName ++ "/") ++ "../../etc/passwd" := by
    rw [String.append_assoc, String.append_assoc, String.append_assoc]
    congr 1
  have hdata : ("/icons/" ++ packageName ++ "/../../etc/passwd").data.drop
      (("/icons/" ++ packageName ++ "/").length) = "../../etc/passwd".data := by
    rw [hcat, String.data_append,
      show ("/icons/" ++ packageName ++ "/").length =
        ("/icons/" ++ packageName ++ "/").data.length from rfl]
    exact List.drop_left _ _
  rw [hdata]
  -- the resolved target: two levels up, then etc/passwd
  set ds := normSegs true (splitSegs loader.directory.data) with hds
  have hds_inv := normSegs_inv (splitSegs loader.directory.data)
  have hds_nodots : ∀ x ∈ ds, x ≠ ['.'] ∧ x ≠ ['.', '.'] :=
    fun x hx => (hds_inv x hx).2
  have hdd : ['.', '.'] ∉ ds := fun hx => (hds_nodots _ hx).2 rfl
  have hdd1 : ['.', '.'] ∉ ds.dropLast :=
    fun hx => hdd ((List.dropLast_sublist ds).subset hx)
  have hsplit_rest : splitSegs ("../../etc/passwd".data) =
      [['.', '.'], ['.', '.'], ['e', 't', 'c'], ['p', 'a', 's', 's', 'w', 'd']] := by
    decide
  have habs : isAbs ("../../etc/passwd".data) = false := by decide
  have hresolved : pathResolve loader.directory.data ("../../etc/passwd".data) =
      '/' :: joinSegs (ds.dropLast.dropLast ++
        [['e', 't', 'c'], ['p', 'a', 's', 's', 'w', 'd']]) := by
    unfold pathResolve
    rw [habs]
    simp only [Bool.false_eq_true, if_false]
    congr 1
    unfold normSegs
    rw [List.foldl_append, hsplit_rest]
    simp only [List.foldl_cons, List.foldl_nil]
    rw [show (splitSegs loader.directory.data).foldl (normStep true) [] = ds from rfl,
      normStep_dotdot ds hdd, normStep_dotdot ds.dropLast hdd1,
      normStep_plain _ _ (by decide) (by decide),
      normStep_plain _ _ (by decide) (by decide)]
    rw [List.append_assoc]
    rfl
  rw [hresolved]
  -- the relative form: ds with up to two segments dropped, plus etc/passwd
  unfold pathRelativeSegs
  set rs := ds.dropLast.dropLast ++
    [['e', 't', 'c'], ['p', 'a', 's', 's', 'w', 'd']] with hrs
  have hrs_ok : ∀ x ∈ rs, x ≠ [] ∧ '/' ∉ x := by
    intro x hx
    rcases List.mem_append.mp hx with hx | hx
    · have hxds : x ∈ ds :=
        (List.dropLast_sublist ds).subset
          ((List.dropLast_sublist ds.dropLast).subset hx)
      exact splitSegs_ok _ x (hds_inv x hxds).1
    · rcases List.mem_cons.mp hx with rfl | hx
      · exact ⟨by decide, by decide⟩
      · rcases List.mem_singleton.mp hx with rfl
        exact ⟨by decide, by decide⟩
  have hrs_nodots : ∀ x ∈ rs, x ≠ ['.'] ∧ x ≠ ['.', '.'] := by
    intro x hx
    rcases List.mem_append.mp hx with hx | hx
    · have hxds : x ∈ ds :=
        (List.dropLast_sublist ds).subset
          ((List.dropLast_sublist ds.dropLast).subset hx)
      exact hds_nodots x hxds
    · rcases List.mem_cons.mp hx with rfl | hx
      · exact ⟨by decide, by decide⟩
      · rcases List.mem_singleton.mp hx with rfl
        exact ⟨by decide, by decide⟩
  have hts : normSegs true (splitSegs ('/' :: joinSegs rs)) = rs := by
    rw [splitSegs_cons_slash, splitSegs_joinSegs rs hrs_ok]
    unfold normSegs
    rw [foldl_normStep_no_dots rs hrs_nodots []]
    simp
  rw [hts]
  -- the common prefix is strictly shorter than the directory
  have hlt : commonPrefixLen ds rs < ds.length := by
    rcases Nat.lt_or_ge (commonPrefixLen ds rs) ds.length with h | h
    · exact h
    · exfalso
      have heq : commonPrefixLen ds rs = ds.length :=
        Nat.le_antisymm (commonPrefixLen_le ds rs) h
      have hpre : ds <+: rs := prefix_of_commonPrefixLen_eq_length ds rs heq
      have hlen_rs : rs.length = ds.dropLast.dropLast.length + 2 := by
        simp [hrs]
      cases hdslen : ds.length with
      | zero => exact hne (List.length_eq_zero.mp hdslen)
      | succ n =>
        cases n with
        | zero =>
          -- one segment: rs = [etc, passwd], so ds = [etc]
          rcases List.length_eq_one.mp hdslen with ⟨a, ha⟩
          have hdl : ds.dropLast = [] := by rw [ha]; rfl
          have hrs2 : rs = [['e', 't', 'c'], ['p', 'a', 's', 's', 'w', 'd']] := by
            rw [hrs, hdl]
            rfl
          rcases hpre with ⟨tl, htl⟩
          rw [ha, hrs2] at htl
          have : a = ['e', 't', 'c'] := by
            injection htl with h1 h2
          exact hetc (by rw [ha, this])
        | succ m =>
          -- at least two segments: lengths agree, so ds = rs
          have hdl1 : ds.dropLast.length = m + 1 := by
            rw [List.length_dropLast, hdslen]
            omega
          have hdl2 : ds.dropLast.dropLast.length = m := by
            rw [List.length_dropLast, hdl1]
            omega
          have hlen_eq : rs.length = ds.length := by
            rw [hlen_rs, hdl2, hdslen]
          have hdseq : ds = rs := List.IsPrefix.eq_of_length hpre hlen_eq.symm
          refine hsuf ⟨ds.dropLast.dropLast, ?_⟩
          rw [← hrs]
          exact hdseq.symm
  apply List.mem_append_left
  exact List.mem_replicate.mpr ⟨Nat.sub_ne_zero_of_lt hlt, rfl⟩

/-- C7 amended witness: a missing package yields no result, and the
traversal probe against the fixture package (directory
`/opt/n8n/node_modules/n8n-nodes-base`) yields no result. -/
theorem resolveIcon_traversal_safe_witness :
    resolveIcon wState "missing" "/icons/missing/logo.svg" = none ∧
    resolveIcon wState "n8n-nodes-base"
      ("/icons/" ++ "n8n-nodes-base" ++ "/../../etc/passwd") = none := by
  refine ⟨(resolveIcon_traversal_safe wState "missing").1 (by decide)
      "/icons/missing/logo.svg",
    (resolveIcon_traversal_safe wState "n8n-nodes-base").2.2 wLoaderBase
      (by decide) (by decide) (by decide) (by decide)⟩

end LoadNodes
